import Mathlib

/-!
# matlab-lmdb: the MEX binding layer of `src/LMDB_.cc`

A shallow embedding of the binding layer: the scoped `Transaction` and `Cursor`
classes and the MEX entry points `new`, `get`, `put`, `remove`, `each` and `reduce`.

* Pointers are `Option Nat` (`none` is `NULL`).
* `ERROR` / `ASSERT` (`mexErrMsgIdAndTxt`) leave the MEX function at once; the
  destructors of the locals constructed so far then run in reverse order of
  declaration.  Every entry point is therefore a `*_body` (the statements up to
  the first raise) followed by the destructors.
* The storage engine (LMDB, `lmdb.h`) is not part of the repository.  It is
  modelled by the state `World`: the committed table, the live transactions
  and cursors, and a `script` of statuses the engine is forced to report, one
  entry per fallible engine call (`0`, or an exhausted script, lets the call
  behave as documented in `lmdb.h`).  `World.log` records every engine call and
  every host callback, oldest first.
* The host callback of `each` and `reduce` (`mexCallMATLAB(..., "feval")`) is
  a function of a host state `H`; it returns the call's status and does not
  call back into the binding.
* The `while` loops of `each` and `reduce` take a `fuel` bound and return
  `none` when it is reached; the theorems show that any fuel above the number
  of records is never reached.
-/

namespace LMDB

/-! ## Bytes and engine constants -/

abbrev Byte := Fin 256

abbrev Bytes := List Byte

/-- Engine status codes (`lmdb.h`, `errno.h`). -/
def MDB_SUCCESS : Int := 0

def MDB_KEYEXIST : Int := -30799

def MDB_NOTFOUND : Int := -30798

def EACCES : Int := 13

def EINVAL : Int := 22

/-- Environment flags (`lmdb.h`). -/
def MDB_FIXEDMAP : Nat := 0x01

def MDB_NOSUBDIR : Nat := 0x4000

def MDB_NOSYNC : Nat := 0x10000

def MDB_RDONLY : Nat := 0x20000

def MDB_NOMETASYNC : Nat := 0x40000

def MDB_WRITEMAP : Nat := 0x80000

def MDB_MAPASYNC : Nat := 0x100000

def MDB_NOTLS : Nat := 0x200000

def MDB_NOLOCK : Nat := 0x400000

def MDB_NORDAHEAD : Nat := 0x800000

def MDB_NOMEMINIT : Nat := 0x1000000

/-- Table flags (`lmdb.h`). -/
def MDB_REVERSEKEY : Nat := 0x02

def MDB_DUPSORT : Nat := 0x04

def MDB_INTEGERKEY : Nat := 0x08

def MDB_DUPFIXED : Nat := 0x10

def MDB_INTEGERDUP : Nat := 0x20

def MDB_REVERSEDUP : Nat := 0x40

def MDB_CREATE : Nat := 0x40000

/-- Write flags (`lmdb.h`). -/
def MDB_NOOVERWRITE : Nat := 0x10

def MDB_NODUPDATA : Nat := 0x20

def MDB_RESERVE : Nat := 0x10000

def MDB_APPEND : Nat := 0x20000

/-- The C struct `MDB_val`: a size and the buffer its data pointer refers to
(`NULL` is the empty buffer). -/
structure MDB_val where
  mv_size : Nat
  mv_data : Bytes
deriving DecidableEq, Repr

/-- Template specialisation `MxArray::from(const MDB_val&)`: the host string made
of the `mv_size` bytes starting at `mv_data`. -/
def MxArray_from (value : MDB_val) : Bytes :=
  value.mv_data.take value.mv_size

/-- The `MDB_val` built from a host string: `{s.size(), s.c_str()}`. -/
def MDB_val.ofString (s : Bytes) : MDB_val :=
  ⟨s.length, s⟩

/-! ## Association lists -/

/-- First value bound to `a`. -/
def find? {α β : Type} [DecidableEq α] (a : α) : List (α × β) → Option β
  | [] => none
  | (x, y) :: rest => if x = a then some y else find? a rest

/-- Remove the first binding of `a`. -/
def erase {α β : Type} [DecidableEq α] (a : α) : List (α × β) → List (α × β)
  | [] => []
  | (x, y) :: rest => if x = a then rest else (x, y) :: erase a rest

/-- Remove every record of key `k` from a table. -/
def delete (k : Bytes) (t : List (Bytes × Bytes)) : List (Bytes × Bytes) :=
  t.filter (fun r => decide (r.1 ≠ k))

/-- Insert or replace `k ↦ v` in a table kept in ascending key order. -/
def insert (k v : Bytes) : List (Bytes × Bytes) → List (Bytes × Bytes)
  | [] => [(k, v)]
  | (k', v') :: rest =>
    if k = k' then (k, v) :: rest
    else if k < k' then (k, v) :: (k', v') :: rest
    else (k', v') :: insert k v rest

/-- Keys strictly ascending in lexicographic byte order: the shape of every
table the engine holds under its default key comparison. -/
def Ascending (t : List (Bytes × Bytes)) : Prop :=
  List.Pairwise (fun a b => a.1 < b.1) t

instance (t : List (Bytes × Bytes)) : Decidable (Ascending t) := by
  unfold Ascending
  infer_instance

/-! ## The engine and the call trace -/

/-- One engine call or host callback, with the status it reported. -/
inductive Event where
  | txn_begin (flags : Nat) (status : Int) (txn : Option Nat)
  | txn_commit (txn : Option Nat) (status : Int)
  | txn_abort (txn : Option Nat)
  | cursor_open (txn : Option Nat) (status : Int) (cursor : Option Nat)
  | cursor_close (cursor : Option Nat)
  | cursor_get (cursor : Option Nat) (status : Int)
  | get (txn : Option Nat) (key : Bytes) (status : Int)
  | put (txn : Option Nat) (key data : Bytes) (flags : Nat) (status : Int)
  | del (txn : Option Nat) (key : Bytes) (status : Int)
  | feval (key value : Bytes) (status : Int)
deriving DecidableEq, Repr

/-- A live engine transaction: its begin flags and its view of the table. -/
structure TxnRec where
  flags : Nat
  view : List (Bytes × Bytes)
deriving DecidableEq, Repr

/-- A live engine cursor: its transaction and the records not yet returned. -/
structure CursorRec where
  txn : Nat
  rest : List (Bytes × Bytes)
deriving DecidableEq, Repr

/-- Modelled from the spec: the Engine is an external collaborator (LMDB) whose
code is absent; this is its state together with the trace of calls made. -/
structure World where
  store : List (Bytes × Bytes)
  txns : List (Nat × TxnRec)
  cursors : List (Nat × CursorRec)
  next : Nat
  script : List Int
  log : List Event
deriving DecidableEq, Repr

/-- A quiescent engine holding `store`, about to follow `script`. -/
def World.fresh (store : List (Bytes × Bytes)) (script : List Int) : World :=
  ⟨store, [], [], 0, script, []⟩

/-- First entry of a script; an exhausted script forces nothing. -/
def nextStatus : List Int → Int
  | [] => 0
  | s :: _ => s

/-- The script once its first entry is consumed. -/
def afterCall : List Int → List Int
  | [] => []
  | _ :: rest => rest

/-- Status the script forces on the next fallible engine call (`0`: none). -/
def World.forced (w : World) : Int :=
  nextStatus w.script

/-- Consume one script entry. -/
def World.step (w : World) : World :=
  { w with script := afterCall w.script }

/-- Append an event to the trace. -/
def World.emit (w : World) (e : Event) : World :=
  { w with log := w.log ++ [e] }

/-- Whether a transaction begun with `flags` is read-only. -/
def isReadOnly (flags : Nat) : Bool :=
  flags &&& MDB_RDONLY != 0

/-- Modelled from the spec: engine call `mdb_txn_begin(env, NULL, flags, &txn)`.
The out-parameter is written only on success. -/
def mdb_txn_begin (w : World) (flags : Nat) : Int × Option Nat × World :=
  let forced := w.forced
  let w := w.step
  if forced ≠ MDB_SUCCESS then
    (forced, none, w.emit (.txn_begin flags forced none))
  else
    let id := w.next
    (MDB_SUCCESS, some id,
      ({ w with next := id + 1, txns := (id, ⟨flags, w.store⟩) :: w.txns }).emit
        (.txn_begin flags MDB_SUCCESS (some id)))

/-- Modelled from the spec: engine call `mdb_txn_commit(txn)`.  The transaction
is freed whatever the status; a write transaction that commits installs its
view as the committed table. -/
def mdb_txn_commit (w : World) (txn : Option Nat) : Int × World :=
  let forced := w.forced
  let w := w.step
  match txn.bind (fun id => (find? id w.txns).map (fun r => (id, r))) with
  | none => (EINVAL, w.emit (.txn_commit txn EINVAL))
  | some (id, r) =>
    let w := { w with txns := erase id w.txns }
    if forced ≠ MDB_SUCCESS then
      (forced, w.emit (.txn_commit txn forced))
    else
      (MDB_SUCCESS,
        ({ w with store := if isReadOnly r.flags then w.store else r.view }).emit
          (.txn_commit txn MDB_SUCCESS))

/-- Modelled from the spec: engine call `mdb_txn_abort(txn)`: the transaction is
freed and its view discarded. -/
def mdb_txn_abort (w : World) (txn : Option Nat) : World :=
  match txn with
  | none => w.emit (.txn_abort txn)
  | some id => ({ w with txns := erase id w.txns }).emit (.txn_abort txn)

/-- Modelled from the spec: engine call `mdb_get(txn, dbi, &key, &data)`.  `data`
is written only on success. -/
def mdb_get (w : World) (txn : Option Nat) (key data : MDB_val) : Int × MDB_val × World :=
  let forced := w.forced
  let w := w.step
  let k := MxArray_from key
  if forced ≠ MDB_SUCCESS then
    (forced, data, w.emit (.get txn k forced))
  else
    match txn.bind (fun id => find? id w.txns) with
    | none => (EINVAL, data, w.emit (.get txn k EINVAL))
    | some r =>
      match find? k r.view with
      | none => (MDB_NOTFOUND, data, w.emit (.get txn k MDB_NOTFOUND))
      | some v => (MDB_SUCCESS, MDB_val.ofString v, w.emit (.get txn k MDB_SUCCESS))

/-- Modelled from the spec: what `mdb_put` does to a transaction's view under
the write flags, on a table without duplicates: `MDB_NOOVERWRITE` refuses an
existing key, `MDB_APPEND` refuses a key not above the last one,
`MDB_RESERVE` reserves the space without copying the data. -/
def putView (view : List (Bytes × Bytes)) (k v : Bytes) (flags : Nat) :
    Int × List (Bytes × Bytes) :=
  let stored := if flags &&& MDB_RESERVE != 0 then List.replicate v.length 0 else v
  if flags &&& MDB_NOOVERWRITE != 0 ∧ (find? k view).isSome then
    (MDB_KEYEXIST, view)
  else if flags &&& MDB_APPEND != 0 then
    match view.getLast? with
    | none => (MDB_SUCCESS, [(k, stored)])
    | some last => if last.1 < k then (MDB_SUCCESS, view ++ [(k, stored)]) else (MDB_KEYEXIST, view)
  else
    (MDB_SUCCESS, insert k stored view)

/-- Modelled from the spec: engine call `mdb_put(txn, dbi, &key, &data, flags)`. -/
def mdb_put (w : World) (txn : Option Nat) (key data : MDB_val) (flags : Nat) : Int × World :=
  let forced := w.forced
  let w := w.step
  let k := MxArray_from key
  let v := MxArray_from data
  if forced ≠ MDB_SUCCESS then
    (forced, w.emit (.put txn k v flags forced))
  else
    match txn.bind (fun id => (find? id w.txns).map (fun r => (id, r))) with
    | none => (EINVAL, w.emit (.put txn k v flags EINVAL))
    | some (id, r) =>
      if isReadOnly r.flags then
        (EACCES, w.emit (.put txn k v flags EACCES))
      else
        let p := putView r.view k v flags
        (p.1, ({ w with txns := (id, { r with view := p.2 }) :: erase id w.txns }).emit
          (.put txn k v flags p.1))

/-- Modelled from the spec: engine call `mdb_del(txn, dbi, &key, NULL)`:
deleting a key that is not there reports `MDB_NOTFOUND`. -/
def mdb_del (w : World) (txn : Option Nat) (key : MDB_val) : Int × World :=
  let forced := w.forced
  let w := w.step
  let k := MxArray_from key
  if forced ≠ MDB_SUCCESS then
    (forced, w.emit (.del txn k forced))
  else
    match txn.bind (fun id => (find? id w.txns).map (fun r => (id, r))) with
    | none => (EINVAL, w.emit (.del txn k EINVAL))
    | some (id, r) =>
      if isReadOnly r.flags then
        (EACCES, w.emit (.del txn k EACCES))
      else
        match find? k r.view with
        | none => (MDB_NOTFOUND, w.emit (.del txn k MDB_NOTFOUND))
        | some _ =>
          (MDB_SUCCESS,
            ({ w with txns := (id, { r with view := delete k r.view }) :: erase id w.txns }).emit
              (.del txn k MDB_SUCCESS))

/-- Modelled from the spec: engine call `mdb_cursor_open(txn, dbi, &cursor)`.
The out-parameter is written only on success; a new cursor stands before the
first record of its transaction's view. -/
def mdb_cursor_open (w : World) (txn : Option Nat) : Int × Option Nat × World :=
  let forced := w.forced
  let w := w.step
  if forced ≠ MDB_SUCCESS then
    (forced, none, w.emit (.cursor_open txn forced none))
  else
    match txn.bind (fun id => (find? id w.txns).map (fun r => (id, r))) with
    | none => (EINVAL, none, w.emit (.cursor_open txn EINVAL none))
    | some (id, r) =>
      let c := w.next
      (MDB_SUCCESS, some c,
        ({ w with next := c + 1, cursors := (c, ⟨id, r.view⟩) :: w.cursors }).emit
          (.cursor_open txn MDB_SUCCESS (some c)))

/-- Modelled from the spec: engine call `mdb_cursor_close(cursor)`. -/
def mdb_cursor_close (w : World) (cursor : Option Nat) : World :=
  match cursor with
  | none => w.emit (.cursor_close cursor)
  | some c => ({ w with cursors := erase c w.cursors }).emit (.cursor_close cursor)

/-- Modelled from the spec: engine call
`mdb_cursor_get(cursor, &key, &data, MDB_NEXT)`: moves to the next record in
traversal order and returns it, or reports `MDB_NOTFOUND` at the end of the
table.  `key` and `data` are written only on success. -/
def mdb_cursor_get (w : World) (cursor : Option Nat) (key data : MDB_val) :
    Int × MDB_val × MDB_val × World :=
  let forced := w.forced
  let w := w.step
  if forced ≠ MDB_SUCCESS then
    (forced, key, data, w.emit (.cursor_get cursor forced))
  else
    match cursor.bind (fun c => (find? c w.cursors).map (fun r => (c, r))) with
    | none => (EINVAL, key, data, w.emit (.cursor_get cursor EINVAL))
    | some (c, r) =>
      match r.rest with
      | [] => (MDB_NOTFOUND, key, data, w.emit (.cursor_get cursor MDB_NOTFOUND))
      | (k, v) :: rest =>
        (MDB_SUCCESS, MDB_val.ofString k, MDB_val.ofString v,
          ({ w with cursors := (c, { r with rest := rest }) :: erase c w.cursors }).emit
            (.cursor_get cursor MDB_SUCCESS))

/-! ## The binding layer -/

/-- What `ERROR(...)` raises: the engine's status text, or the callback message. -/
inductive Raised where
  | mdb (status : Int)
  | callback
deriving DecidableEq, Repr

/-- Class `Transaction`: the raw transaction pointer `txn_`. -/
structure Transaction where
  txn_ : Option Nat := none
deriving DecidableEq, Repr

/-- Method `Transaction::get()`. -/
def Transaction.get (t : Transaction) : Option Nat :=
  t.txn_

/-- Method `Transaction::abort()`, also the destructor `~Transaction()`. -/
def Transaction.abort (t : Transaction) (w : World) : Transaction × World :=
  match t.txn_ with
  | some p => ({ txn_ := none }, mdb_txn_abort w (some p))
  | none => ({ txn_ := none }, w)

/-- Method `Transaction::begin(env, flags)`. -/
def Transaction.begin (t : Transaction) (w : World) (flags : Nat) :
    Option Raised × Transaction × World :=
  match t.abort w with
  | (t, w) =>
    match mdb_txn_begin w flags with
    | (status, out, w) =>
      let t : Transaction := match out with
        | some p => { txn_ := some p }
        | none => t
      if status = MDB_SUCCESS then (none, t, w) else (some (.mdb status), t, w)

/-- Method `Transaction::commit()`.  A failing `ASSERT` leaves before
`txn_ = NULL`. -/
def Transaction.commit (t : Transaction) (w : World) : Option Raised × Transaction × World :=
  match t.txn_ with
  | some p =>
    match mdb_txn_commit w (some p) with
    | (status, w) =>
      if status = MDB_SUCCESS then (none, { txn_ := none }, w)
      else (some (.mdb status), t, w)
  | none => (none, { txn_ := none }, w)

/-- Class `Cursor`: the raw cursor pointer `cursor_`. -/
structure Cursor where
  cursor_ : Option Nat := none
deriving DecidableEq, Repr

/-- Method `Cursor::get()`. -/
def Cursor.get (c : Cursor) : Option Nat :=
  c.cursor_

/-- Method `Cursor::close()`, also the destructor `~Cursor()`. -/
def Cursor.close (c : Cursor) (w : World) : Cursor × World :=
  match c.cursor_ with
  | some p => ({ cursor_ := none }, mdb_cursor_close w (some p))
  | none => ({ cursor_ := none }, w)

/-- Method `Cursor::open(txn, dbi)`. -/
def Cursor.open (c : Cursor) (w : World) (txn : Option Nat) : Option Raised × Cursor × World :=
  match c.close w with
  | (c, w) =>
    match mdb_cursor_open w txn with
    | (status, out, w) =>
      let c : Cursor := match out with
        | some p => { cursor_ := some p }
        | none => c
      if status = MDB_SUCCESS then (none, c, w) else (some (.mdb status), c, w)

/-- Named options of `new`, as `InputArguments` holds them: `none` when the
caller did not supply the option. -/
structure NewInput where
  MODE : Option Nat := none
  FIXEDMAP : Option Bool := none
  NOSUBDIR : Option Bool := none
  NOSYNC : Option Bool := none
  RDONLY : Option Bool := none
  NOMETASYNC : Option Bool := none
  WRITEMAP : Option Bool := none
  MAPASYNC : Option Bool := none
  NOTLS : Option Bool := none
  NOLOCK : Option Bool := none
  NORDAHEAD : Option Bool := none
  NOMEMINIT : Option Bool := none
  REVERSEKEY : Option Bool := none
  DUPSORT : Option Bool := none
  INTEGERKEY : Option Bool := none
  DUPFIXED : Option Bool := none
  INTEGERDUP : Option Bool := none
  REVERSEDUP : Option Bool := none
  CREATE : Option Bool := none
  MAPSIZE : Option Nat := none
deriving DecidableEq, Repr

/-- The arguments `new` hands to the engine. -/
structure NewCalls where
  mapsize : Nat
  mode : Nat
  envFlags : Nat
  txnFlags : Nat
  dbiFlags : Nat
deriving DecidableEq, Repr

/-- Entry point `new`: the values it computes from its options, in source order.
The variable `flags` is assigned three times; the default of `CREATE` reads it
before the third assignment. -/
def new (input : NewInput) : NewCalls :=
  let mapsize := input.MAPSIZE.getD 10485760
  let mode := input.MODE.getD 0o664
  let flags : Nat :=
    (if input.FIXEDMAP.getD false then MDB_FIXEDMAP else 0) |||
    (if input.NOSUBDIR.getD false then MDB_NOSUBDIR else 0) |||
    (if input.NOSYNC.getD false then MDB_NOSYNC else 0) |||
    (if input.RDONLY.getD false then MDB_RDONLY else 0) |||
    (if input.NOMETASYNC.getD false then MDB_NOMETASYNC else 0) |||
    (if input.WRITEMAP.getD false then MDB_WRITEMAP else 0) |||
    (if input.MAPASYNC.getD false then MDB_MAPASYNC else 0) |||
    (if input.NOTLS.getD false then MDB_NOTLS else 0) |||
    (if input.NOLOCK.getD false then MDB_NOLOCK else 0) |||
    (if input.NORDAHEAD.getD false then MDB_NORDAHEAD else 0) |||
    (if input.NOMEMINIT.getD false then MDB_NOMEMINIT else 0)
  let envFlags := flags
  let flags : Nat := if input.RDONLY.getD false then MDB_RDONLY else 0
  let txnFlags := flags
  let flags : Nat :=
    (if input.REVERSEKEY.getD false then MDB_REVERSEKEY else 0) |||
    (if input.DUPSORT.getD false then MDB_DUPSORT else 0) |||
    (if input.INTEGERKEY.getD false then MDB_INTEGERKEY else 0) |||
    (if input.DUPFIXED.getD false then MDB_DUPFIXED else 0) |||
    (if input.INTEGERDUP.getD false then MDB_INTEGERDUP else 0) |||
    (if input.REVERSEDUP.getD false then MDB_REVERSEDUP else 0) |||
    (if input.CREATE.getD (flags == 0) then MDB_CREATE else 0)
  ⟨mapsize, mode, envFlags, txnFlags, flags⟩

/-- Whether one of the sort-order table options is set. -/
def NewInput.sortOrder (input : NewInput) : Bool :=
  input.REVERSEKEY.getD false || input.DUPSORT.getD false || input.INTEGERKEY.getD false ||
  input.DUPFIXED.getD false || input.INTEGERDUP.getD false || input.REVERSEDUP.getD false

/-- Statements of entry point `get` up to its first raise. -/
def get_body (w : World) (key_string : Bytes) (transaction : Transaction) :
    Option Raised × MDB_val × Transaction × World :=
  let mdb_key := MDB_val.ofString key_string
  let mdb_value : MDB_val := ⟨0, []⟩
  match transaction.begin w MDB_RDONLY with
  | (some e, transaction, w) => (some e, mdb_value, transaction, w)
  | (none, transaction, w) =>
    match mdb_get w transaction.get mdb_key mdb_value with
    | (status, mdb_value, w) =>
      if status = MDB_SUCCESS ∨ status = MDB_NOTFOUND then
        match transaction.commit w with
        | (e, transaction, w) => (e, mdb_value, transaction, w)
      else (some (.mdb status), mdb_value, transaction, w)

/-- Entry point `get`: the body, then `~Transaction()`; on a normal return the
output is `MxArray::from(mdb_value)`. -/
def get (w : World) (key_string : Bytes) : Except Raised Bytes × World :=
  match get_body w key_string {} with
  | (e, mdb_value, transaction, w) =>
    let w := (transaction.abort w).2
    match e with
    | some r => (.error r, w)
    | none => (.ok (MxArray_from mdb_value), w)

/-- Named options of `put`. -/
structure PutInput where
  NODUPDATA : Option Bool := none
  NOOVERWRITE : Option Bool := none
  RESERVE : Option Bool := none
  APPEND : Option Bool := none
deriving DecidableEq, Repr

/-- The write flags `put` computes from its options. -/
def put_flags (input : PutInput) : Nat :=
  (if input.NODUPDATA.getD false then MDB_NODUPDATA else 0) |||
  (if input.NOOVERWRITE.getD false then MDB_NOOVERWRITE else 0) |||
  (if input.RESERVE.getD false then MDB_RESERVE else 0) |||
  (if input.APPEND.getD false then MDB_APPEND else 0)

/-- Statements of entry point `put` up to its first raise. -/
def put_body (w : World) (key_string value_string : Bytes) (input : PutInput)
    (transaction : Transaction) : Option Raised × Transaction × World :=
  let flags := put_flags input
  let mdb_key := MDB_val.ofString key_string
  let mdb_value := MDB_val.ofString value_string
  match transaction.begin w 0 with
  | (some e, transaction, w) => (some e, transaction, w)
  | (none, transaction, w) =>
    match mdb_put w transaction.get mdb_key mdb_value flags with
    | (status, w) =>
      if status = MDB_SUCCESS then transaction.commit w
      else (some (.mdb status), transaction, w)

/-- Entry point `put`: the body, then `~Transaction()`. -/
def put (w : World) (key_string value_string : Bytes) (input : PutInput) :
    Except Raised Unit × World :=
  match put_body w key_string value_string input {} with
  | (e, transaction, w) =>
    let w := (transaction.abort w).2
    match e with
    | some r => (.error r, w)
    | none => (.ok (), w)

/-- Statements of entry point `remove` up to its first raise. -/
def remove_body (w : World) (key_string : Bytes) (transaction : Transaction) :
    Option Raised × Transaction × World :=
  let mdb_key := MDB_val.ofString key_string
  match transaction.begin w 0 with
  | (some e, transaction, w) => (some e, transaction, w)
  | (none, transaction, w) =>
    match mdb_del w transaction.get mdb_key with
    | (status, w) =>
      if status = MDB_SUCCESS then transaction.commit w
      else (some (.mdb status), transaction, w)

/-- Entry point `remove`: the body, then `~Transaction()`. -/
def remove (w : World) (key_string : Bytes) : Except Raised Unit × World :=
  match remove_body w key_string {} with
  | (e, transaction, w) =>
    let w := (transaction.abort w).2
    match e with
    | some r => (.error r, w)
    | none => (.ok (), w)

/-- The `while (status == MDB_SUCCESS)` loop of `each`.  The host callback
`mexCallMATLAB(0, NULL, 3, prhs, "feval")` is `visitor`: it reads and updates
the host state and returns the call's status.  `fuel` bounds the number of
loop tests; `none` means the bound was reached. -/
def each_loop {H : Type} (visitor : H → Bytes → Bytes → Int × H) (cursor : Cursor) :
    Nat → Int → MDB_val → MDB_val → H → World → Option (Option Raised × Int × H × World)
  | 0, _, _, _, _, _ => none
  | fuel + 1, status, mdb_key, mdb_value, h, w =>
    if status = MDB_SUCCESS then
      let key := MxArray_from mdb_key
      let value := MxArray_from mdb_value
      match visitor h key value with
      | (r, h) =>
        let w := w.emit (.feval key value r)
        if r = 0 then
          match mdb_cursor_get w cursor.get mdb_key mdb_value with
          | (status, mdb_key, mdb_value, w) => each_loop visitor cursor fuel status mdb_key mdb_value h w
        else some (some .callback, status, h, w)
    else some (none, status, h, w)

/-- Statements of entry point `each` up to its first raise. -/
def each_body {H : Type} (fuel : Nat) (w : World) (visitor : H → Bytes → Bytes → Int × H) (h : H)
    (transaction : Transaction) (cursor : Cursor) :
    Option (Option Raised × Transaction × Cursor × H × World) :=
  let mdb_key : MDB_val := ⟨0, []⟩
  let mdb_value : MDB_val := ⟨0, []⟩
  match transaction.begin w MDB_RDONLY with
  | (some e, transaction, w) => some (some e, transaction, cursor, h, w)
  | (none, transaction, w) =>
    match cursor.open w transaction.get with
    | (some e, cursor, w) => some (some e, transaction, cursor, h, w)
    | (none, cursor, w) =>
      match mdb_cursor_get w cursor.get mdb_key mdb_value with
      | (status, mdb_key, mdb_value, w) =>
        match each_loop visitor cursor fuel status mdb_key mdb_value h w with
        | none => none
        | some (some e, _, h, w) => some (some e, transaction, cursor, h, w)
        | some (none, status, h, w) =>
          if status = MDB_SUCCESS ∨ status = MDB_NOTFOUND then
            match cursor.close w with
            | (cursor, w) =>
              match transaction.commit w with
              | (e, transaction, w) => some (e, transaction, cursor, h, w)
          else some (some (.mdb status), transaction, cursor, h, w)

/-- Entry point `each`: the body, then `~Cursor()`, then `~Transaction()`
(`transaction` is declared before `cursor`). -/
def each {H : Type} (fuel : Nat) (w : World) (visitor : H → Bytes → Bytes → Int × H) (h : H) :
    Option (Except Raised Unit × H × World) :=
  match each_body fuel w visitor h {} {} with
  | none => none
  | some (e, transaction, cursor, h, w) =>
    let w := (cursor.close w).2
    let w := (transaction.abort w).2
    match e with
    | some r => some (.error r, h, w)
    | none => some (.ok (), h, w)

/-- The `while (status == MDB_SUCCESS)` loop of `reduce`.  The host callback
`mexCallMATLAB(1, &lhs, 4, prhs, "feval")` is `folder`: it returns the call's
status, the value left in `lhs` and the new host state. -/
def reduce_loop {H A : Type} (folder : H → Bytes → Bytes → A → Int × A × H) (cursor : Cursor) :
    Nat → Int → MDB_val → MDB_val → A → H → World →
      Option (Option Raised × Int × A × H × World)
  | 0, _, _, _, _, _, _ => none
  | fuel + 1, status, mdb_key, mdb_value, accumulation, h, w =>
    if status = MDB_SUCCESS then
      let key := MxArray_from mdb_key
      let value := MxArray_from mdb_value
      match folder h key value accumulation with
      | (r, lhs, h) =>
        let w := w.emit (.feval key value r)
        if r = 0 then
          match mdb_cursor_get w cursor.get mdb_key mdb_value with
          | (status, mdb_key, mdb_value, w) =>
            reduce_loop folder cursor fuel status mdb_key mdb_value lhs h w
        else some (some .callback, status, accumulation, h, w)
    else some (none, status, accumulation, h, w)

/-- Statements of entry point `reduce` up to its first raise. -/
def reduce_body {H A : Type} (fuel : Nat) (w : World)
    (folder : H → Bytes → Bytes → A → Int × A × H) (initial : A) (h : H)
    (transaction : Transaction) (cursor : Cursor) :
    Option (Option Raised × A × Transaction × Cursor × H × World) :=
  let mdb_key : MDB_val := ⟨0, []⟩
  let mdb_value : MDB_val := ⟨0, []⟩
  let accumulation := initial
  match transaction.begin w MDB_RDONLY with
  | (some e, transaction, w) => some (some e, accumulation, transaction, cursor, h, w)
  | (none, transaction, w) =>
    match cursor.open w transaction.get with
    | (some e, cursor, w) => some (some e, accumulation, transaction, cursor, h, w)
    | (none, cursor, w) =>
      match mdb_cursor_get w cursor.get mdb_key mdb_value with
      | (status, mdb_key, mdb_value, w) =>
        match reduce_loop folder cursor fuel status mdb_key mdb_value accumulation h w with
        | none => none
        | some (some e, _, accumulation, h, w) =>
          some (some e, accumulation, transaction, cursor, h, w)
        | some (none, status, accumulation, h, w) =>
          if status = MDB_SUCCESS ∨ status = MDB_NOTFOUND then
            match cursor.close w with
            | (cursor, w) =>
              match transaction.commit w with
              | (e, transaction, w) => some (e, accumulation, transaction, cursor, h, w)
          else some (some (.mdb status), accumulation, transaction, cursor, h, w)

/-- Entry point `reduce`: the body, then `~Cursor()`, then `~Transaction()`; on a
normal return the output is the accumulation. -/
def reduce {H A : Type} (fuel : Nat) (w : World)
    (folder : H → Bytes → Bytes → A → Int × A × H) (initial : A) (h : H) :
    Option (Except Raised A × H × World) :=
  match reduce_body fuel w folder initial h {} {} with
  | none => none
  | some (e, accumulation, transaction, cursor, h, w) =>
    let w := (cursor.close w).2
    let w := (transaction.abort w).2
    match e with
    | some r => some (.error r, h, w)
    | none => some (.ok accumulation, h, w)

/-! ## A `Transaction` object driven by its caller -/

/-- A call on a `Transaction` object. -/
inductive Call where
  | begin (flags : Nat)
  | commit
  | abort
deriving DecidableEq, Repr

/-- Apply one call. -/
def Transaction.call (t : Transaction) (w : World) : Call → Option Raised × Transaction × World
  | .begin flags => t.begin w flags
  | .commit => t.commit w
  | .abort => (none, t.abort w)

/-- Apply calls in order until one raises. -/
def Transaction.run : List Call → Transaction → World → Option Raised × Transaction × World
  | [], t, w => (none, t, w)
  | c :: cs, t, w =>
    match t.call w c with
    | (some e, t, w) => (some e, t, w)
    | (none, t, w) => Transaction.run cs t w

/-- A scope owning one `Transaction`: construction, the calls, then the
destructor (also when a call raised). -/
def Transaction.scope (calls : List Call) (w : World) : World :=
  match Transaction.run calls {} w with
  | (_, t, w) => (t.abort w).2

/-- Whether the event is a commit or an abort applied to engine transaction `p`. -/
def Event.terminates (p : Nat) : Event → Bool
  | .txn_commit (some q) _ => q == p
  | .txn_abort (some q) => q == p
  | _ => false

/-- Whether the event releases an engine resource: a commit, an abort or a
cursor close. -/
def Event.isRelease : Event → Bool
  | .txn_commit _ _ => true
  | .txn_abort _ => true
  | .cursor_close _ => true
  | _ => false

/-- The trace of a full traversal of `records` by cursor `c` in which every
callback succeeds: each record is fetched and handed to the callback once, in
order, and the fetch after the last record reports `MDB_NOTFOUND`. -/
def traversal (c : Option Nat) : List (Bytes × Bytes) → List Event
  | [] => [.cursor_get c MDB_NOTFOUND]
  | (k, v) :: rest => .cursor_get c MDB_SUCCESS :: .feval k v 0 :: traversal c rest

/-- One step of the left fold `reduce` is claimed to compute: the folder applied
to a record, the running accumulator and the host state. -/
def foldStep {H A : Type} (folder : H → Bytes → Bytes → A → Int × A × H) (s : A × H)
    (r : Bytes × Bytes) : A × H :=
  ((folder s.2 r.1 r.2 s.1).2.1, (folder s.2 r.1 r.2 s.1).2.2)

/-- A visitor of `each` seen as a folder whose accumulator carries nothing. -/
def asFolder {H : Type} (visitor : H → Bytes → Bytes → Int × H) :
    H → Bytes → Bytes → Unit → Int × Unit × H :=
  fun h k v _ => ((visitor h k v).1, (), (visitor h k v).2)

/-- The callback arguments recorded in a trace, oldest first. -/
def fevals (log : List Event) : List (Bytes × Bytes) :=
  log.filterMap fun
    | .feval k v _ => some (k, v)
    | _ => none

/-- The traces a traversal (`each`, `reduce`) may leave when its transaction
handle is `t` and its cursor handle is `t + 1`: the begin was refused and
nothing is held; or the cursor open was refused and the transaction is
aborted; or both succeeded, the `body` releases nothing, then the cursor is
closed, and only after that the transaction is committed or aborted (an abort
follows a commit the engine refused). -/
def Released (t : Nat) (evs : List Event) : Prop :=
  (∃ s, s ≠ MDB_SUCCESS ∧ evs = [.txn_begin MDB_RDONLY s none]) ∨
  (∃ s, s ≠ MDB_SUCCESS ∧
    evs = [.txn_begin MDB_RDONLY MDB_SUCCESS (some t), .cursor_open (some t) s none,
      .txn_abort (some t)]) ∨
  (∃ body tail,
    evs = .txn_begin MDB_RDONLY MDB_SUCCESS (some t) ::
      .cursor_open (some t) MDB_SUCCESS (some (t + 1)) ::
      (body ++ .cursor_close (some (t + 1)) :: tail) ∧
    (∀ ev ∈ body, ev.isRelease = false) ∧
    (tail = [.txn_commit (some t) MDB_SUCCESS] ∨ tail = [.txn_abort (some t)] ∨
      ∃ s, s ≠ MDB_SUCCESS ∧ tail = [.txn_commit (some t) s, .txn_abort (some t)]))

/-- Number of terminal actions the trace applies to engine transaction `p`. -/
def terminals (p : Nat) (log : List Event) : Nat :=
  log.countP (Event.terminates p)

/-- Engine transactions the trace shows as begun. -/
def begun (log : List Event) : List Nat :=
  log.filterMap fun
    | .txn_begin _ _ (some p) => some p
    | _ => none

/-- What holds of a `Transaction` object and the trace while no commit has been
refused: handles not yet minted are neither begun nor terminated, the handle
the object holds is live and has no terminal action yet, and every other
transaction begun has exactly one. -/
def TxnInv (t : Transaction) (w : World) : Prop :=
  (∀ p, w.next ≤ p → terminals p w.log = 0) ∧
  (∀ p ∈ begun w.log, p < w.next) ∧
  (∀ p ∈ begun w.log, terminals p w.log = if t.txn_ = some p then 0 else 1) ∧
  (∀ q, t.txn_ = some q → (find? q w.txns).isSome ∧ q ∈ begun w.log)

/-- Whether the trace holds a commit the engine refused. -/
def RefusedCommit (log : List Event) : Prop :=
  ∃ p s, Event.txn_commit p s ∈ log ∧ s ≠ MDB_SUCCESS

/-! ## Basic facts about tables, scripts and conversions -/

@[simp] theorem find?_cons_self {α β : Type} [DecidableEq α] (a : α) (y : β)
    (rest : List (α × β)) : find? a ((a, y) :: rest) = some y := by
  simp [find?]

@[simp] theorem erase_cons_self {α β : Type} [DecidableEq α] (a : α) (y : β)
    (rest : List (α × β)) : erase a ((a, y) :: rest) = rest := by
  simp [erase]

@[simp] theorem MxArray_from_ofString (s : Bytes) : MxArray_from (MDB_val.ofString s) = s := by
  simp [MxArray_from, MDB_val.ofString]

@[simp] theorem MxArray_from_null : MxArray_from ⟨0, []⟩ = [] := rfl

@[simp] theorem isReadOnly_RDONLY : isReadOnly MDB_RDONLY = true := by decide

@[simp] theorem isReadOnly_zero : isReadOnly 0 = false := by decide

@[simp] theorem nextStatus_nil : nextStatus [] = 0 := rfl

@[simp] theorem afterCall_nil : afterCall [] = [] := rfl

theorem nextStatus_mem (l : List Int) : nextStatus l = 0 ∨ nextStatus l ∈ l := by
  cases l with
  | nil => exact Or.inl rfl
  | cons s rest => exact Or.inr (by simp [nextStatus])

theorem mem_of_mem_afterCall {x : Int} {l : List Int} (h : x ∈ afterCall l) : x ∈ l := by
  cases l with
  | nil => exact h
  | cons s rest => exact List.mem_cons_of_mem _ h

theorem find?_cons_ne {α β : Type} [DecidableEq α] {a x : α} (y : β) (rest : List (α × β))
    (h : x ≠ a) : find? a ((x, y) :: rest) = find? a rest := by
  simp [find?, h]

theorem delete_cons_self (k v : Bytes) (rest : List (Bytes × Bytes)) :
    delete k ((k, v) :: rest) = delete k rest := by
  simp [delete]

theorem delete_cons_ne {k k0 : Bytes} (v : Bytes) (rest : List (Bytes × Bytes)) (h : k0 ≠ k) :
    delete k ((k0, v) :: rest) = (k0, v) :: delete k rest := by
  simp [delete, h]

theorem find?_insert_self (k v : Bytes) (t : List (Bytes × Bytes)) :
    find? k (insert k v t) = some v := by
  induction t with
  | nil => simp [insert]
  | cons r rest ih =>
    obtain ⟨k', v'⟩ := r
    by_cases h1 : k = k'
    · simp [insert, h1]
    · by_cases h2 : k < k'
      · simp [insert, h1, h2]
      · have h3 : k' ≠ k := fun h => h1 h.symm
        simp only [insert, h1, h2, if_false]
        rw [find?_cons_ne _ _ h3, ih]

theorem find?_insert_ne (k v k' : Bytes) (t : List (Bytes × Bytes)) (hne : k' ≠ k) :
    find? k' (insert k v t) = find? k' t := by
  have hne' : k ≠ k' := fun h => hne h.symm
  induction t with
  | nil => simp only [insert]; rw [find?_cons_ne _ _ hne']
  | cons r rest ih =>
    obtain ⟨k0, v0⟩ := r
    by_cases h1 : k = k0
    · subst h1
      simp only [insert, if_true]
      rw [find?_cons_ne _ _ hne', find?_cons_ne _ _ hne']
    · by_cases h2 : k < k0
      · simp only [insert, h1, h2, if_true, if_false]
        rw [find?_cons_ne _ _ hne']
      · simp only [insert, h1, h2, if_false]
        by_cases h3 : k0 = k'
        · subst h3
          rw [find?_cons_self, find?_cons_self]
        · rw [find?_cons_ne _ _ h3, find?_cons_ne _ _ h3, ih]

theorem find?_delete_self (k : Bytes) (t : List (Bytes × Bytes)) : find? k (delete k t) = none := by
  induction t with
  | nil => rfl
  | cons r rest ih =>
    obtain ⟨k', v'⟩ := r
    by_cases h : k' = k
    · subst h
      rw [delete_cons_self, ih]
    · rw [delete_cons_ne _ _ h, find?_cons_ne _ _ h, ih]

theorem find?_delete_ne (k k' : Bytes) (t : List (Bytes × Bytes)) (hne : k' ≠ k) :
    find? k' (delete k t) = find? k' t := by
  induction t with
  | nil => rfl
  | cons r rest ih =>
    obtain ⟨k0, v0⟩ := r
    by_cases h : k0 = k
    · subst h
      rw [delete_cons_self, find?_cons_ne _ _ (Ne.symm hne), ih]
    · rw [delete_cons_ne _ _ h]
      by_cases h2 : k0 = k'
      · subst h2
        rw [find?_cons_self, find?_cons_self]
      · rw [find?_cons_ne _ _ h2, find?_cons_ne _ _ h2, ih]

theorem delete_of_absent (k : Bytes) (t : List (Bytes × Bytes)) (h : find? k t = none) :
    delete k t = t := by
  induction t with
  | nil => rfl
  | cons r rest ih =>
    obtain ⟨k', v'⟩ := r
    by_cases hk : k' = k
    · subst hk
      rw [find?_cons_self] at h
      cases h
    · rw [find?_cons_ne _ _ hk] at h
      rw [delete_cons_ne _ _ hk, ih h]

theorem putView_noflags (view : List (Bytes × Bytes)) (k v : Bytes) :
    putView view k v (put_flags {}) = (MDB_SUCCESS, insert k v view) := by
  have h : put_flags {} = 0 := by decide
  have h1 : ((0 : Nat) &&& MDB_RESERVE != 0) = false := by decide
  have h2 : ((0 : Nat) &&& MDB_NOOVERWRITE != 0) = false := by decide
  have h3 : ((0 : Nat) &&& MDB_APPEND != 0) = false := by decide
  simp [putView, h, h1, h2, h3]

/-! ## `new` -/

theorem create_bit (b1 b2 b3 b4 b5 b6 c : Bool) :
    ((((if b1 then MDB_REVERSEKEY else 0) ||| (if b2 then MDB_DUPSORT else 0) |||
      (if b3 then MDB_INTEGERKEY else 0) ||| (if b4 then MDB_DUPFIXED else 0) |||
      (if b5 then MDB_INTEGERDUP else 0) ||| (if b6 then MDB_REVERSEDUP else 0) |||
      (if c then MDB_CREATE else 0)) &&& MDB_CREATE) != 0) = c := by
  revert b1 b2 b3 b4 b5 b6 c
  decide

/-- C9 (as amended): the table flags `new` passes to the engine include
`MDB_CREATE` exactly when the caller supplied `CREATE` as true, or did not
supply `CREATE` and did not set `RDONLY`; the sort-order options play no part. -/
theorem new_create_flag (input : NewInput) :
    ((new input).dbiFlags &&& MDB_CREATE != 0) =
      (match input.CREATE with
       | some b => b
       | none => !(input.RDONLY.getD false)) := by
  have h : ((new input).dbiFlags &&& MDB_CREATE != 0) =
      input.CREATE.getD ((if input.RDONLY.getD false then MDB_RDONLY else 0) == 0) :=
    create_bit _ _ _ _ _ _ _
  rw [h]
  rcases input.CREATE with _ | c
  · rcases input.RDONLY with _ | _ | _ <;> decide
  · rfl

/-- C9 (as stated) fails: with `CREATE` not supplied, `REVERSEKEY` set still
yields `MDB_CREATE`, and `RDONLY` set with no sort-order option yields no
`MDB_CREATE`. -/
theorem new_create_flag_counterexample :
    (({ REVERSEKEY := some true } : NewInput).CREATE = none ∧
      ({ REVERSEKEY := some true } : NewInput).sortOrder = true ∧
      ((new { REVERSEKEY := some true }).dbiFlags &&& MDB_CREATE != 0) = true) ∧
    (({ RDONLY := some true } : NewInput).CREATE = none ∧
      ({ RDONLY := some true } : NewInput).sortOrder = false ∧
      ((new { RDONLY := some true }).dbiFlags &&& MDB_CREATE != 0) = false) := by
  decide

/-! ## `Transaction` -/

/-- C7 (failing input): `begin` accepted, then `commit` rejected by the engine
with status 5, then the destructor.  The one engine transaction begun receives
a commit and then an abort: two terminal actions. -/
theorem commit_rejected_double_terminal :
    (Transaction.scope [.begin 0, .commit] (World.fresh [] [0, 5])).log =
      [.txn_begin 0 0 (some 0), .txn_commit (some 0) 5, .txn_abort (some 0)] ∧
    begun (Transaction.scope [.begin 0, .commit] (World.fresh [] [0, 5])).log = [0] ∧
    terminals 0 (Transaction.scope [.begin 0, .commit] (World.fresh [] [0, 5])).log = 2 := by
  decide

/-! ## `get`, `put`, `remove` -/

theorem get_quiet (w : World) (key : Bytes) (hq : w.script = []) :
    get w key =
      (.ok ((find? key w.store).getD []),
        { w with
          next := w.next + 1
          log := w.log ++ [.txn_begin MDB_RDONLY 0 (some w.next),
            .get (some w.next) key
              (if (find? key w.store).isSome then MDB_SUCCESS else MDB_NOTFOUND),
            .txn_commit (some w.next) 0] }) := by
  obtain ⟨store, txns, cursors, next, script, log⟩ := w
  simp only at hq
  subst hq
  cases hf : find? key store <;>
  simp [get, get_body, Transaction.begin, Transaction.abort, Transaction.commit, Transaction.get,
    mdb_txn_begin, mdb_txn_commit, mdb_get, World.forced, World.step, World.emit, MDB_SUCCESS, hf,
    MDB_NOTFOUND]

theorem put_ok_store (w w' : World) (k v : Bytes) (input : PutInput)
    (h : put w k v input = (.ok (), w')) :
    (putView w.store k v (put_flags input)).1 = MDB_SUCCESS ∧
    w'.store = (putView w.store k v (put_flags input)).2 := by
  obtain ⟨store, txns, cursors, next, script, log⟩ := w
  by_cases h1 : nextStatus script = 0 <;>
  by_cases h2 : nextStatus (afterCall script) = 0 <;>
  by_cases h3 : nextStatus (afterCall (afterCall script)) = 0 <;>
  by_cases hp : (putView store k v (put_flags input)).1 = 0 <;>
  simp [put, put_body, Transaction.begin, Transaction.abort, Transaction.commit, Transaction.get,
    mdb_txn_begin, mdb_txn_commit, mdb_txn_abort, mdb_put, World.forced, World.step, World.emit,
    MDB_SUCCESS, h1, h2, h3, hp] at h ⊢
  subst h
  rfl

/-- C3: a `put` without write flags that returns normally is followed by a
`get` of the same key returning exactly the bytes written, whatever the store
held before; a second accepted `put` of the key makes `get` return the second
value.  (`script = []`: the engine is forced to nothing during the `get`.) -/
theorem put_then_get (w w1 : World) (k v1 : Bytes) (h1 : put w k v1 {} = (.ok (), w1)) :
    (w1.script = [] → (get w1 k).1 = .ok v1) ∧
    (∀ (w2 : World) (v2 : Bytes), put w1 k v2 {} = (.ok (), w2) → w2.script = [] →
      (get w2 k).1 = .ok v2) := by
  have key : ∀ (w w1 : World) (v : Bytes), put w k v {} = (.ok (), w1) → w1.script = [] →
      (get w1 k).1 = .ok v := by
    intro w w1 v h hq
    have hs := (put_ok_store w w1 k v {} h).2
    rw [putView_noflags] at hs
    rw [get_quiet w1 k hq, hs, find?_insert_self]
    rfl
  exact ⟨key w w1 v1 h1, fun w2 v2 h2 hq => key w1 w2 v2 h2 hq⟩

theorem put_then_get_witness :
    put (World.fresh [([97], [49])] []) [97] [50] {} =
        (.ok (), (put (World.fresh [([97], [49])] []) [97] [50] {}).2) ∧
      (get (put (World.fresh [([97], [49])] []) [97] [50] {}).2 [97]).1 = .ok [50] :=
  ⟨rfl, (put_then_get (World.fresh [([97], [49])] []) _ [97] [50] rfl).1 rfl⟩

theorem forced_ne_notFound (l script : List Int) (hsub : ∀ x ∈ l, x ∈ script)
    (h0 : nextStatus l ≠ 0) (hn : MDB_NOTFOUND ∉ script) : nextStatus l ≠ MDB_NOTFOUND := by
  intro heq
  rcases nextStatus_mem l with h | h
  · exact h0 h
  · exact hn (heq ▸ hsub _ h)

/-- C4: on a key never written, `get` returns normally with the untouched
initial `mdb_value` (the not-found result, an empty string), the engine having
reported `MDB_NOTFOUND`.  When `get` raises, it raises an engine status that is
not success, reported by the transaction begin, the lookup or the commit; from
the lookup it is never `MDB_NOTFOUND`, and it is never `MDB_NOTFOUND` at all
when the engine reports not-found for absent keys only. -/
theorem get_absent (w : World) (k : Bytes) :
    (w.script = [] → find? k w.store = none →
      (get w k).1 = .ok [] ∧ Event.get (some w.next) k MDB_NOTFOUND ∈ (get w k).2.log) ∧
    (∀ e, (get w k).1 = .error e →
      ∃ s, e = .mdb s ∧ s ≠ MDB_SUCCESS ∧
        (Event.txn_begin MDB_RDONLY s none ∈ (get w k).2.log ∨
          (Event.get (some w.next) k s ∈ (get w k).2.log ∧ s ≠ MDB_NOTFOUND) ∨
          Event.txn_commit (some w.next) s ∈ (get w k).2.log) ∧
        (MDB_NOTFOUND ∉ w.script → s ≠ MDB_NOTFOUND)) := by
  refine ⟨fun hq ha => ?_, fun e he => ?_⟩
  · rw [get_quiet w k hq, ha]
    simp
  · have m1 := nextStatus_mem w.script
    have m2 := nextStatus_mem (afterCall w.script)
    have m3 := nextStatus_mem (afterCall (afterCall w.script))
    have n2 : ∀ x, x ∈ afterCall w.script → x ∈ w.script := fun x hx => mem_of_mem_afterCall hx
    have n3 : ∀ x, x ∈ afterCall (afterCall w.script) → x ∈ w.script :=
      fun x hx => mem_of_mem_afterCall (mem_of_mem_afterCall hx)
    obtain ⟨store, txns, cursors, next, script, log⟩ := w
    simp only at m1 m2 m3 n2 n3
    have nf : MDB_NOTFOUND ≠ 0 := by decide
    by_cases h1 : nextStatus script = 0 <;>
    by_cases h2 : nextStatus (afterCall script) = 0 <;>
    by_cases h3 : nextStatus (afterCall (afterCall script)) = 0 <;>
    by_cases h4 : nextStatus (afterCall script) = MDB_NOTFOUND <;>
    cases hf : find? k store <;>
    simp [get, get_body, Transaction.begin, Transaction.abort, Transaction.commit,
      Transaction.get, mdb_txn_begin, mdb_txn_commit, mdb_txn_abort, mdb_get, World.forced,
      World.step, World.emit, MDB_SUCCESS, h1, h2, h3, h4, hf, nf] at he ⊢ <;>
    subst he <;>
    refine ⟨_, rfl, by assumption, by simp [*], fun hn => ?_⟩ <;>
    first
      | exact forced_ne_notFound script script (fun _ hx => hx) h1 hn
      | exact forced_ne_notFound _ script n2 h2 hn
      | exact forced_ne_notFound _ script n3 h3 hn

theorem get_absent_witness :
    ((World.fresh [([97], [49])] []).script = [] ∧ find? [98] (World.fresh [([97], [49])] []).store = none ∧
      (get (World.fresh [([97], [49])] []) [98]).1 = .ok []) ∧
    ((get (World.fresh [([97], [49])] [0, 7]) [97]).1 = .error (.mdb 7) ∧
      ∃ s, Raised.mdb 7 = .mdb s ∧ s ≠ MDB_SUCCESS ∧ s ≠ MDB_NOTFOUND) :=
  ⟨⟨rfl, rfl, ((get_absent (World.fresh [([97], [49])] []) [98]).1 rfl rfl).1⟩,
    ⟨rfl, by
      obtain ⟨s, h1, h2, _, h4⟩ :=
        (get_absent (World.fresh [([97], [49])] [0, 7]) [97]).2 (.mdb 7) rfl
      exact ⟨s, h1, h2, h4 (by decide)⟩⟩⟩

/-- C10: with the engine behaving as documented, `get` on an absent key and
`get` on a key whose stored value is empty both return the empty string, so
the two cases give the caller the same output. -/
theorem get_absent_same_as_empty (w : World) (k k' : Bytes) (hq : w.script = [])
    (ha : find? k w.store = none) (he : find? k' w.store = some []) :
    (get w k).1 = .ok [] ∧ (get w k').1 = .ok [] ∧ (get w k).1 = (get w k').1 := by
  rw [get_quiet w k hq, get_quiet w k' hq, ha, he]
  exact ⟨rfl, rfl, rfl⟩

theorem get_absent_same_as_empty_witness :
    (World.fresh [([98], [])] []).script = [] ∧
    find? [97] (World.fresh [([98], [])] []).store = none ∧
    find? [98] (World.fresh [([98], [])] []).store = some [] ∧
    (get (World.fresh [([98], [])] []) [97]).1 = (get (World.fresh [([98], [])] []) [98]).1 :=
  ⟨rfl, rfl, rfl, (get_absent_same_as_empty (World.fresh [([98], [])] []) [97] [98] rfl rfl rfl).2.2⟩

theorem remove_quiet (w : World) (k : Bytes) (hq : w.script = []) :
    remove w k =
      match find? k w.store with
      | some _ =>
        (.ok (),
          { w with
            store := delete k w.store
            next := w.next + 1
            log := w.log ++ [.txn_begin 0 0 (some w.next), .del (some w.next) k MDB_SUCCESS,
              .txn_commit (some w.next) 0] })
      | none =>
        (.error (.mdb MDB_NOTFOUND),
          { w with
            next := w.next + 1
            log := w.log ++ [.txn_begin 0 0 (some w.next), .del (some w.next) k MDB_NOTFOUND,
              .txn_abort (some w.next)] }) := by
  obtain ⟨store, txns, cursors, next, script, log⟩ := w
  simp only at hq
  subst hq
  have nf : MDB_NOTFOUND ≠ 0 := by decide
  cases hf : find? k store <;>
  simp [remove, remove_body, Transaction.begin, Transaction.abort, Transaction.commit,
    Transaction.get, mdb_txn_begin, mdb_txn_commit, mdb_txn_abort, mdb_del, World.forced,
    World.step, World.emit, MDB_SUCCESS, hf, nf]

/-- C5: with the engine behaving as documented, `remove` of a present key
returns normally, commits, leaves the key absent (a following `get` gives the
not-found result) and leaves every other key's record as it was; `remove` of
an absent key raises the engine's `MDB_NOTFOUND` status, aborts, and leaves
the store as it was. -/
theorem remove_spec (w : World) (k : Bytes) (hq : w.script = []) :
    (∀ v, find? k w.store = some v →
      (remove w k).1 = .ok () ∧
      Event.txn_commit (some w.next) 0 ∈ (remove w k).2.log ∧
      find? k (remove w k).2.store = none ∧
      (get (remove w k).2 k).1 = .ok [] ∧
      (∀ k', k' ≠ k → find? k' (remove w k).2.store = find? k' w.store) ∧
      (remove w k).2.store = w.store.filter (fun r => decide (r.1 ≠ k))) ∧
    (find? k w.store = none →
      (remove w k).1 = .error (.mdb MDB_NOTFOUND) ∧
      Event.txn_abort (some w.next) ∈ (remove w k).2.log ∧
      (remove w k).2.store = w.store) := by
  constructor
  · intro v hv
    have hr := remove_quiet w k hq
    rw [hv] at hr
    simp only at hr
    have hq' : (remove w k).2.script = [] := by rw [hr]; exact hq
    have hs : (remove w k).2.store = delete k w.store := by rw [hr]
    refine ⟨by rw [hr], by rw [hr]; simp, by rw [hs, find?_delete_self], ?_, ?_, hs⟩
    · rw [get_quiet _ k hq', hs, find?_delete_self]
      rfl
    · intro k' hne
      rw [hs, find?_delete_ne k k' _ hne]
  · intro ha
    have hr := remove_quiet w k hq
    rw [ha] at hr
    simp only at hr
    refine ⟨by rw [hr], by rw [hr]; simp, by rw [hr]⟩

theorem remove_spec_witness :
    (World.fresh [([97], [49]), ([98], [50])] []).script = [] ∧
    (find? [98] (World.fresh [([97], [49]), ([98], [50])] []).store = some [50] ∧
      (remove (World.fresh [([97], [49]), ([98], [50])] []) [98]).1 = .ok ()) ∧
    (find? [99] (World.fresh [([97], [49]), ([98], [50])] []).store = none ∧
      (remove (World.fresh [([97], [49]), ([98], [50])] []) [99]).1 = .error (.mdb MDB_NOTFOUND)) :=
  ⟨rfl,
    ⟨rfl, ((remove_spec (World.fresh [([97], [49]), ([98], [50])] []) [98] rfl).1 [50] rfl).1⟩,
    ⟨rfl, ((remove_spec (World.fresh [([97], [49]), ([98], [50])] []) [99] rfl).2 rfl).1⟩⟩

/-- C6: when the engine's `mdb_put` reports a status other than success, `put`
raises that status, the trace of the call is begin, the rejected put and an
abort (no commit), no transaction is left live and the committed store is
what it was, so a following `get` returns what it returned before. -/
theorem put_rejected (w : World) (k v : Bytes) (input : PutInput) (tx : Option Nat) (s : Int)
    (hev : Event.put tx k v (put_flags input) s ∈ (put w k v input).2.log.drop w.log.length)
    (hs : s ≠ MDB_SUCCESS) :
    (put w k v input).1 = .error (.mdb s) ∧
    (put w k v input).2.log =
      w.log ++ [.txn_begin 0 0 tx, .put tx k v (put_flags input) s, .txn_abort tx] ∧
    (put w k v input).2.txns = w.txns ∧
    (put w k v input).2.store = w.store ∧
    ((put w k v input).2.script = [] →
      (get (put w k v input).2 k).1 = .ok ((find? k w.store).getD [])) := by
  have hstore : (put w k v input).1 = .error (.mdb s) ∧
      (put w k v input).2.log =
        w.log ++ [.txn_begin 0 0 tx, .put tx k v (put_flags input) s, .txn_abort tx] ∧
      (put w k v input).2.txns = w.txns ∧
      (put w k v input).2.store = w.store := by
    obtain ⟨store, txns, cursors, next, script, log⟩ := w
    by_cases h1 : nextStatus script = 0 <;>
    by_cases h2 : nextStatus (afterCall script) = 0 <;>
    by_cases h3 : nextStatus (afterCall (afterCall script)) = 0 <;>
    by_cases hp : (putView store k v (put_flags input)).1 = 0 <;>
    simp [put, put_body, Transaction.begin, Transaction.abort, Transaction.commit,
      Transaction.get, mdb_txn_begin, mdb_txn_commit, mdb_txn_abort, mdb_put, World.forced,
      World.step, World.emit, MDB_SUCCESS, h1, h2, h3, hp] at hev hs ⊢ <;>
    obtain ⟨rfl, rfl⟩ := hev <;>
    first
      | exact absurd rfl hs
      | simp
  refine ⟨hstore.1, hstore.2.1, hstore.2.2.1, hstore.2.2.2, fun hq => ?_⟩
  rw [get_quiet _ k hq, hstore.2.2.2]

theorem put_rejected_witness :
    Event.put (some 1) [97] [50] (put_flags { NOOVERWRITE := some true }) MDB_KEYEXIST ∈
        (put (put (World.fresh [] []) [97] [49] { NOOVERWRITE := some true }).2 [97] [50]
          { NOOVERWRITE := some true }).2.log.drop
          (put (World.fresh [] []) [97] [49] { NOOVERWRITE := some true }).2.log.length ∧
      MDB_KEYEXIST ≠ MDB_SUCCESS ∧
      (put (put (World.fresh [] []) [97] [49] { NOOVERWRITE := some true }).2 [97] [50]
        { NOOVERWRITE := some true }).1 = .error (.mdb MDB_KEYEXIST) :=
  ⟨by decide, by decide,
    (put_rejected (put (World.fresh [] []) [97] [49] { NOOVERWRITE := some true }).2 [97] [50]
      { NOOVERWRITE := some true } (some 1) MDB_KEYEXIST (by decide) (by decide)).1⟩

/-! ## `each` and `reduce` -/

theorem each_loop_eq_reduce_loop {H : Type} (visitor : H → Bytes → Bytes → Int × H)
    (cursor : Cursor) (fuel : Nat) :
    ∀ (status : Int) (mdb_key mdb_value : MDB_val) (h : H) (w : World),
      each_loop visitor cursor fuel status mdb_key mdb_value h w =
        (reduce_loop (asFolder visitor) cursor fuel status mdb_key mdb_value () h w).map
          (fun r => (r.1, r.2.1, r.2.2.2.1, r.2.2.2.2)) := by
  induction fuel with
  | zero => intros; rfl
  | succ n ih =>
    intro status mdb_key mdb_value h w
    by_cases hs : status = MDB_SUCCESS
    · by_cases hr : (visitor h (MxArray_from mdb_key) (MxArray_from mdb_value)).1 = 0
      · simp only [each_loop, reduce_loop, asFolder, hs, hr, if_true, ih]
      · simp [each_loop, reduce_loop, asFolder, hs, hr]
    · simp [each_loop, reduce_loop, hs]

theorem each_eq_reduce {H : Type} (fuel : Nat) (w : World)
    (visitor : H → Bytes → Bytes → Int × H) (h : H) :
    each fuel w visitor h =
      (reduce fuel w (asFolder visitor) () h).map
        (fun r => (r.1.map (fun _ => ()), r.2)) := by
  simp only [each, each_body, reduce, reduce_body, each_loop_eq_reduce_loop]
  rcases Transaction.begin {} w MDB_RDONLY with ⟨_ | e, t, w1⟩
  · simp only
    rcases Cursor.open {} w1 t.get with ⟨_ | e, c, w2⟩
    · simp only
      rcases mdb_cursor_get w2 c.get ⟨0, []⟩ ⟨0, []⟩ with ⟨st, mk, mv, w3⟩
      simp only
      rcases reduce_loop (asFolder visitor) c fuel st mk mv () h w3 with
        _ | ⟨_ | e, st', acc, h', w4⟩
      · rfl
      · simp only [Option.map]
        by_cases hst : st' = MDB_SUCCESS ∨ st' = MDB_NOTFOUND
        · simp only [hst, if_true]
          rcases Transaction.commit t (Cursor.close c w4).2 with ⟨_ | e, t', w5⟩ <;> rfl
        · simp only [hst, if_false]
          rfl
      · rfl
    · rfl
  · rfl

theorem reduce_loop_exit {H A : Type} (folder : H → Bytes → Bytes → A → Int × A × H)
    (cursor : Cursor) (fuel : Nat) (status : Int) (mdb_key mdb_value : MDB_val) (acc : A) (h : H)
    (w : World) (hs : status ≠ MDB_SUCCESS) :
    reduce_loop folder cursor (fuel + 1) status mdb_key mdb_value acc h w =
      some (none, status, acc, h, w) := by
  simp [reduce_loop, hs]

theorem reduce_loop_quiet {H A : Type} (folder : H → Bytes → Bytes → A → Int × A × H)
    (hfold : ∀ h k v a, (folder h k v a).1 = 0) (c tx : Nat) (store : List (Bytes × Bytes))
    (txns : List (Nat × TxnRec)) (cs : List (Nat × CursorRec)) (next : Nat) :
    ∀ (rest : List (Bytes × Bytes)) (fuel : Nat) (k v : Bytes) (acc : A) (h : H) (log : List Event),
      rest.length + 2 ≤ fuel →
      reduce_loop folder ⟨some c⟩ fuel MDB_SUCCESS (MDB_val.ofString k) (MDB_val.ofString v)
          acc h ⟨store, txns, (c, ⟨tx, rest⟩) :: cs, next, [], log⟩ =
        some (none, MDB_NOTFOUND, (((k, v) :: rest).foldl (foldStep folder) (acc, h)).1,
          (((k, v) :: rest).foldl (foldStep folder) (acc, h)).2,
          ⟨store, txns, (c, ⟨tx, []⟩) :: cs, next, [],
            log ++ .feval k v 0 :: traversal (some c) rest⟩) := by
  intro rest
  induction rest with
  | nil =>
    intro fuel k v acc h log hf
    obtain ⟨f, rfl⟩ : ∃ f, fuel = f + 2 := ⟨fuel - 2, by omega⟩
    have nf : MDB_NOTFOUND ≠ 0 := by decide
    rcases hr : folder h k v acc with ⟨r, lhs, h'⟩
    have hr0 : r = 0 := by have := hfold h k v acc; rw [hr] at this; exact this
    subst hr0
    simp [reduce_loop, hr, mdb_cursor_get, Cursor.get, World.forced, World.step, World.emit,
      MDB_SUCCESS, nf, foldStep, traversal]
  | cons r rest ih =>
    intro fuel k v acc h log hf
    obtain ⟨k', v'⟩ := r
    obtain ⟨f, rfl⟩ : ∃ f, fuel = f + 1 := ⟨fuel - 1, by simp at hf; omega⟩
    rcases hr : folder h k v acc with ⟨r, lhs, h'⟩
    have hr0 : r = 0 := by have := hfold h k v acc; rw [hr] at this; exact this
    subst hr0
    have hf' : rest.length + 2 ≤ f := by simp at hf; omega
    have := ih f k' v' lhs h' (log ++ [.feval k v 0, .cursor_get (some c) MDB_SUCCESS]) hf'
    simp [reduce_loop, hr, mdb_cursor_get, Cursor.get, World.forced, World.step, World.emit,
      MDB_SUCCESS, foldStep, traversal] at this ⊢
    rw [this]

theorem reduce_quiet {H A : Type} (fuel : Nat) (w : World)
    (folder : H → Bytes → Bytes → A → Int × A × H) (initial : A) (h : H)
    (hfold : ∀ h k v a, (folder h k v a).1 = 0) (hq : w.script = [])
    (hf : w.store.length < fuel) :
    reduce fuel w folder initial h =
      some (.ok (w.store.foldl (foldStep folder) (initial, h)).1,
        (w.store.foldl (foldStep folder) (initial, h)).2,
        { w with
          next := w.next + 2
          log := w.log ++ .txn_begin MDB_RDONLY 0 (some w.next) ::
            .cursor_open (some w.next) 0 (some (w.next + 1)) ::
            (traversal (some (w.next + 1)) w.store ++
              [.cursor_close (some (w.next + 1)), .txn_commit (some w.next) 0]) }) := by
  obtain ⟨store, txns, cursors, next, script, log⟩ := w
  simp only at hq hf
  subst hq
  have nf : MDB_NOTFOUND ≠ 0 := by decide
  cases store with
  | nil =>
    obtain ⟨f, rfl⟩ : ∃ f, fuel = f + 1 := ⟨fuel - 1, by simp at hf; omega⟩
    simp [reduce, reduce_body, Transaction.begin, Transaction.abort, Transaction.commit,
      Transaction.get, Cursor.open, Cursor.close, Cursor.get, mdb_txn_begin, mdb_txn_commit,
      mdb_cursor_open, mdb_cursor_close, mdb_cursor_get, World.forced, World.step, World.emit,
      MDB_SUCCESS, nf, reduce_loop, traversal]
  | cons r rest =>
    obtain ⟨k, v⟩ := r
    have hf' : rest.length + 2 ≤ fuel := by simp at hf; omega
    have hl := reduce_loop_quiet folder hfold (next + 1) next ((k, v) :: rest)
      ((next, ⟨MDB_RDONLY, (k, v) :: rest⟩) :: txns) cursors (next + 1 + 1) rest fuel k v initial h
      (log ++ [.txn_begin MDB_RDONLY 0 (some next), .cursor_open (some next) 0 (some (next + 1)),
        .cursor_get (some (next + 1)) 0]) hf'
    simp only [MDB_SUCCESS] at hl
    simp [reduce, reduce_body, Transaction.begin, Transaction.abort, Transaction.commit,
      Transaction.get, Cursor.open, Cursor.close, Cursor.get, mdb_txn_begin, mdb_txn_commit,
      mdb_cursor_open, mdb_cursor_close, mdb_cursor_get, World.forced, World.step, World.emit,
      MDB_SUCCESS, nf, traversal, hl]

theorem reduce_loop_general {H A : Type} (folder : H → Bytes → Bytes → A → Int × A × H)
    (c : Nat) (store : List (Bytes × Bytes)) (txns : List (Nat × TxnRec))
    (cs : List (Nat × CursorRec)) (next : Nat) (fuel : Nat) :
    ∀ (status : Int) (mk mv : MDB_val) (acc : A) (h : H) (r : CursorRec) (script : List Int)
      (log : List Event),
      (status = MDB_SUCCESS → r.rest.length + 2 ≤ fuel) → 1 ≤ fuel →
      ∃ e st' acc' h' r' script' evs,
        reduce_loop folder ⟨some c⟩ fuel status mk mv acc h
            ⟨store, txns, (c, r) :: cs, next, script, log⟩ =
          some (e, st', acc', h', ⟨store, txns, (c, r') :: cs, next, script', log ++ evs⟩) ∧
        (∀ ev ∈ evs, ev.isRelease = false) ∧ (e = none → st' ≠ MDB_SUCCESS) := by
  induction fuel with
  | zero => intro _ _ _ _ _ _ _ _ _ h1; omega
  | succ n ih =>
    intro status mk mv acc h r script log hfuel _
    by_cases hs : status = MDB_SUCCESS
    · have hn : r.rest.length + 1 ≤ n := by have := hfuel hs; omega
      subst hs
      rcases hr : folder h (MxArray_from mk) (MxArray_from mv) acc with ⟨rc, lhs, h1⟩
      by_cases hrc : rc = 0
      · subst hrc
        by_cases hforced : nextStatus script = 0
        · obtain ⟨tx, rest⟩ := r
          cases rest with
          | nil =>
            obtain ⟨e, st', acc', h', r', script', evs, heq, hrel, hst⟩ :=
              ih MDB_NOTFOUND mk mv lhs h1 ⟨tx, []⟩ (afterCall script)
                (log ++ [.feval (MxArray_from mk) (MxArray_from mv) 0,
                  .cursor_get (some c) MDB_NOTFOUND])
                (fun hc => absurd hc (by decide)) (by omega)
            refine ⟨e, st', acc', h', r', script',
              .feval (MxArray_from mk) (MxArray_from mv) 0 ::
                .cursor_get (some c) MDB_NOTFOUND :: evs, ?_, ?_, hst⟩
            · simp [reduce_loop, hr, mdb_cursor_get, Cursor.get, World.forced, World.step,
                World.emit, MDB_SUCCESS, hforced, heq]
            · intro ev hev
              simp only [List.mem_cons] at hev
              rcases hev with rfl | rfl | hev
              · rfl
              · rfl
              · exact hrel ev hev
          | cons kv rest' =>
            obtain ⟨k', v'⟩ := kv
            obtain ⟨e, st', acc', h', r', script', evs, heq, hrel, hst⟩ :=
              ih MDB_SUCCESS (MDB_val.ofString k') (MDB_val.ofString v') lhs h1 ⟨tx, rest'⟩
                (afterCall script)
                (log ++ [.feval (MxArray_from mk) (MxArray_from mv) 0,
                  .cursor_get (some c) MDB_SUCCESS])
                (fun _ => by simp at hn ⊢; omega) (by omega)
            simp only [MDB_SUCCESS] at heq
            refine ⟨e, st', acc', h', r', script',
              .feval (MxArray_from mk) (MxArray_from mv) 0 ::
                .cursor_get (some c) MDB_SUCCESS :: evs, ?_, ?_, hst⟩
            · simp [reduce_loop, hr, mdb_cursor_get, Cursor.get, World.forced, World.step,
                World.emit, MDB_SUCCESS, hforced, heq]
            · intro ev hev
              simp only [List.mem_cons] at hev
              rcases hev with rfl | rfl | hev
              · rfl
              · rfl
              · exact hrel ev hev
        · obtain ⟨e, st', acc', h', r', script', evs, heq, hrel, hst⟩ :=
            ih (nextStatus script) mk mv lhs h1 r (afterCall script)
              (log ++ [.feval (MxArray_from mk) (MxArray_from mv) 0,
                .cursor_get (some c) (nextStatus script)])
              (fun hc => absurd hc hforced) (by omega)
          refine ⟨e, st', acc', h', r', script',
            .feval (MxArray_from mk) (MxArray_from mv) 0 ::
              .cursor_get (some c) (nextStatus script) :: evs, ?_, ?_, hst⟩
          · simp [reduce_loop, hr, mdb_cursor_get, Cursor.get, World.forced, World.step,
              World.emit, MDB_SUCCESS, hforced, heq]
          · intro ev hev
            simp only [List.mem_cons] at hev
            rcases hev with rfl | rfl | hev
            · rfl
            · rfl
            · exact hrel ev hev
      · refine ⟨some .callback, MDB_SUCCESS, acc, h1, r, script,
          [.feval (MxArray_from mk) (MxArray_from mv) rc], ?_, ?_, fun hc => by cases hc⟩
        · simp [reduce_loop, hr, hrc, World.emit]
        · intro ev hev
          simp only [List.mem_singleton] at hev
          subst hev
          rfl
    · refine ⟨none, status, acc, h, r, script, [], ?_, ?_, fun _ => hs⟩
      · rw [reduce_loop_exit _ _ _ _ _ _ _ _ _ hs]
        simp
      · intro ev hev
        cases hev

theorem mdb_cursor_get_shape (c : Nat) (store : List (Bytes × Bytes)) (txns : List (Nat × TxnRec))
    (cs : List (Nat × CursorRec)) (next : Nat) (r : CursorRec) (script : List Int)
    (log : List Event) (mk mv : MDB_val) :
    ∃ st mk' mv' r',
      mdb_cursor_get ⟨store, txns, (c, r) :: cs, next, script, log⟩ (some c) mk mv =
        (st, mk', mv', ⟨store, txns, (c, r') :: cs, next, afterCall script,
          log ++ [.cursor_get (some c) st]⟩) ∧
      (st = MDB_SUCCESS → r'.rest.length + 1 = r.rest.length) := by
  have nf : MDB_NOTFOUND ≠ 0 := by decide
  by_cases hforced : nextStatus script = 0
  · obtain ⟨tx, rest⟩ := r
    cases rest with
    | nil =>
      exact ⟨MDB_NOTFOUND, mk, mv, ⟨tx, []⟩,
        by simp [mdb_cursor_get, World.forced, World.step, World.emit, MDB_SUCCESS, hforced],
        fun hc => absurd hc (by decide)⟩
    | cons kv rest' =>
      exact ⟨MDB_SUCCESS, MDB_val.ofString kv.1, MDB_val.ofString kv.2, ⟨tx, rest'⟩,
        by simp [mdb_cursor_get, World.forced, World.step, World.emit, MDB_SUCCESS, hforced],
        fun _ => rfl⟩
  · exact ⟨nextStatus script, mk, mv, r,
      by simp [mdb_cursor_get, World.forced, World.step, World.emit, MDB_SUCCESS, hforced],
      fun hc => absurd hc hforced⟩

theorem erase_fresh {β : Type} (a : Nat) (l : List (Nat × β)) (h : ∀ p ∈ l, p.1 ≠ a) :
    erase a l = l := by
  induction l with
  | nil => rfl
  | cons p rest ih =>
    obtain ⟨x, y⟩ := p
    have hx : x ≠ a := h (x, y) (List.mem_cons_self _ _)
    have hrest : ∀ p ∈ rest, p.1 ≠ a := fun p hp => h p (List.mem_cons_of_mem _ hp)
    simp [erase, hx, ih hrest]

theorem reduce_releases_core {H A : Type} (fuel : Nat)
    (folder : H → Bytes → Bytes → A → Int × A × H) (initial : A) (h : H)
    (store : List (Bytes × Bytes)) (txns : List (Nat × TxnRec)) (cursors : List (Nat × CursorRec))
    (next : Nat) (script : List Int) (log : List Event) (hf : store.length < fuel)
    (hfresh : ∀ p ∈ txns, p.1 ≠ next) :
    ∃ res h' next' script' evs,
      reduce fuel ⟨store, txns, cursors, next, script, log⟩ folder initial h =
        some (res, h', ⟨store, txns, cursors, next', script', log ++ evs⟩) ∧
      Released next evs := by
  have nf : MDB_NOTFOUND ≠ 0 := by decide
  have hfr := erase_fresh next txns hfresh
  by_cases h1 : nextStatus script = 0
  · by_cases h2 : nextStatus (afterCall script) = 0
    · obtain ⟨st, mk, mv, r, hget, hlen⟩ :=
        mdb_cursor_get_shape (next + 1) store ((next, ⟨MDB_RDONLY, store⟩) :: txns) cursors
          (next + 1 + 1) ⟨next, store⟩ (afterCall (afterCall script))
          (log ++ [.txn_begin MDB_RDONLY 0 (some next),
            .cursor_open (some next) 0 (some (next + 1))]) ⟨0, []⟩ ⟨0, []⟩
      obtain ⟨e, st', acc', h', r', script', evs, hloop, hrel, hst⟩ :=
        reduce_loop_general folder (next + 1) store ((next, ⟨MDB_RDONLY, store⟩) :: txns) cursors
          (next + 1 + 1) fuel st mk mv initial h r (afterCall (afterCall (afterCall script)))
          (log ++ [.txn_begin MDB_RDONLY 0 (some next),
            .cursor_open (some next) 0 (some (next + 1)), .cursor_get (some (next + 1)) st])
          (fun hs => by have := hlen hs; simp only at this; omega) (by omega)
      have hbody : ∀ ev ∈ Event.cursor_get (some (next + 1)) st :: evs, ev.isRelease = false := by
        intro ev hev
        simp only [List.mem_cons] at hev
        rcases hev with rfl | hev
        · rfl
        · exact hrel ev hev
      simp only [List.append_assoc, List.cons_append, List.nil_append] at hget hloop
      cases e with
      | some err =>
        refine ⟨.error err, h', next + 1 + 1, script', _, ?_,
          Or.inr (Or.inr ⟨_, [.txn_abort (some next)], rfl, hbody, Or.inr (Or.inl rfl)⟩)⟩
        simp [reduce, reduce_body, Transaction.begin, Transaction.abort, Transaction.commit,
          Transaction.get, Cursor.open, Cursor.close, Cursor.get, mdb_txn_begin, mdb_txn_abort,
          mdb_txn_commit, mdb_cursor_open, mdb_cursor_close, World.forced, World.step,
          World.emit, MDB_SUCCESS, h1, h2, hget, hloop]
      | none =>
        have hst0 : st' ≠ 0 := hst rfl
        by_cases hnf : st' = MDB_NOTFOUND
        · by_cases hc : nextStatus script' = 0
          · refine ⟨.ok acc', h', next + 1 + 1, afterCall script', _, ?_,
              Or.inr (Or.inr ⟨_, [.txn_commit (some next) MDB_SUCCESS], rfl, hbody,
                Or.inl rfl⟩)⟩
            simp [reduce, reduce_body, Transaction.begin, Transaction.abort, Transaction.commit,
              Transaction.get, Cursor.open, Cursor.close, Cursor.get, mdb_txn_begin,
              mdb_txn_abort, mdb_txn_commit, mdb_cursor_open, mdb_cursor_close, World.forced,
              World.step, World.emit, MDB_SUCCESS, h1, h2, hget, hloop, hnf, hc, nf, hfr]
          · refine ⟨.error (.mdb (nextStatus script')), h', next + 1 + 1, afterCall script', _, ?_,
              Or.inr (Or.inr ⟨_, [.txn_commit (some next) (nextStatus script'),
                .txn_abort (some next)], rfl, hbody, Or.inr (Or.inr ⟨_, hc, rfl⟩)⟩)⟩
            simp [reduce, reduce_body, Transaction.begin, Transaction.abort, Transaction.commit,
              Transaction.get, Cursor.open, Cursor.close, Cursor.get, mdb_txn_begin,
              mdb_txn_abort, mdb_txn_commit, mdb_cursor_open, mdb_cursor_close, World.forced,
              World.step, World.emit, MDB_SUCCESS, h1, h2, hget, hloop, hnf, hc, nf, hfr]
        · refine ⟨.error (.mdb st'), h', next + 1 + 1, script', _, ?_,
            Or.inr (Or.inr ⟨_, [.txn_abort (some next)], rfl, hbody, Or.inr (Or.inl rfl)⟩)⟩
          simp [reduce, reduce_body, Transaction.begin, Transaction.abort, Transaction.commit,
            Transaction.get, Cursor.open, Cursor.close, Cursor.get, mdb_txn_begin, mdb_txn_abort,
            mdb_txn_commit, mdb_cursor_open, mdb_cursor_close, World.forced, World.step,
            World.emit, MDB_SUCCESS, h1, h2, hget, hloop, hnf, hst0]
    · refine ⟨.error (.mdb (nextStatus (afterCall script))), h, next + 1,
        afterCall (afterCall script), _, ?_, Or.inr (Or.inl ⟨_, h2, rfl⟩)⟩
      simp [reduce, reduce_body, Transaction.begin, Transaction.abort, Transaction.commit,
        Transaction.get, Cursor.open, Cursor.close, Cursor.get, mdb_txn_begin, mdb_txn_abort,
        mdb_cursor_open, World.forced, World.step, World.emit, MDB_SUCCESS, h1, h2]
  · refine ⟨.error (.mdb (nextStatus script)), h, next, afterCall script, _, ?_,
      Or.inl ⟨_, h1, rfl⟩⟩
    simp [reduce, reduce_body, Transaction.begin, Transaction.abort, Transaction.commit,
      Transaction.get, Cursor.open, Cursor.close, Cursor.get, mdb_txn_begin, mdb_txn_abort,
      mdb_cursor_open, World.forced, World.step, World.emit, MDB_SUCCESS, h1]

theorem fevals_append (a b : List Event) : fevals (a ++ b) = fevals a ++ fevals b := by
  simp [fevals, List.filterMap_append]

theorem fevals_traversal (c : Option Nat) (t : List (Bytes × Bytes)) :
    fevals (traversal c t) = t := by
  induction t with
  | nil => rfl
  | cons r rest ih =>
    obtain ⟨k, v⟩ := r
    simp only [traversal]
    simpa [fevals] using ih

theorem fevals_quiet_trace (t c : Option Nat) (records : List (Bytes × Bytes)) :
    fevals (.txn_begin MDB_RDONLY 0 t :: .cursor_open t 0 c ::
      (traversal c records ++ [.cursor_close c, .txn_commit t 0])) = records := by
  have hsplit : (Event.txn_begin MDB_RDONLY 0 t :: Event.cursor_open t 0 c ::
      (traversal c records ++ [Event.cursor_close c, Event.txn_commit t 0])) =
      [Event.txn_begin MDB_RDONLY 0 t, Event.cursor_open t 0 c] ++
        (traversal c records ++ [Event.cursor_close c, Event.txn_commit t 0]) := rfl
  rw [hsplit, fevals_append, fevals_append, fevals_traversal]
  simp [fevals]

theorem foldStep_asFolder {H : Type} (visitor : H → Bytes → Bytes → Int × H)
    (t : List (Bytes × Bytes)) (h : H) :
    (t.foldl (foldStep (asFolder visitor)) ((), h)).2 =
      t.foldl (fun h r => (visitor h r.1 r.2).2) h := by
  induction t generalizing h with
  | nil => rfl
  | cons r rest ih => simpa [List.foldl, foldStep, asFolder] using ih _

theorem reduce_quiet_fevals {H A : Type} (fuel : Nat) (w : World)
    (folder : H → Bytes → Bytes → A → Int × A × H) (initial : A) (h : H)
    (hfold : ∀ h k v a, (folder h k v a).1 = 0) (hq : w.script = [])
    (hf : w.store.length < fuel) :
    ∃ w', reduce fuel w folder initial h =
        some (.ok (w.store.foldl (foldStep folder) (initial, h)).1,
          (w.store.foldl (foldStep folder) (initial, h)).2, w') ∧
      fevals (w'.log.drop w.log.length) = w.store := by
  refine ⟨_, reduce_quiet fuel w folder initial h hfold hq hf, ?_⟩
  simp only [List.drop_left]
  exact fevals_quiet_trace _ _ _

/-- C1: with the engine behaving as documented and a folder that never fails,
`reduce` returns the left fold of the folder over the records in traversal
order, starting from the initial accumulator; the callback is invoked once
per record, in that order; on an empty table it is not invoked and the initial
accumulator is returned unchanged.  Any fuel above the number of records
gives this result. -/
theorem reduce_left_fold {H A : Type} (fuel : Nat) (w : World)
    (folder : H → Bytes → Bytes → A → Int × A × H) (initial : A) (h : H)
    (hfold : ∀ h k v a, (folder h k v a).1 = 0) (hq : w.script = [])
    (hf : w.store.length < fuel) :
    ∃ w', reduce fuel w folder initial h =
        some (.ok (w.store.foldl (foldStep folder) (initial, h)).1,
          (w.store.foldl (foldStep folder) (initial, h)).2, w') ∧
      fevals (w'.log.drop w.log.length) = w.store ∧
      (w.store = [] → reduce fuel w folder initial h = some (.ok initial, h, w')) := by
  obtain ⟨w', hred, hfev⟩ := reduce_quiet_fevals fuel w folder initial h hfold hq hf
  refine ⟨w', hred, hfev, ?_⟩
  intro he
  rw [hred, he]
  rfl

theorem reduce_left_fold_witness :
    (∀ (h : Unit) (k v a : Bytes), ((fun (h : Unit) (_ v a : Bytes) => ((0 : Int), a ++ v, h)) h k v a).1 = 0) ∧
    (World.fresh [([97], [49]), ([98], [50]), ([99], [51])] []).script = [] ∧
    (World.fresh [([97], [49]), ([98], [50]), ([99], [51])] []).store.length < 4 ∧
    ∃ w', reduce 4 (World.fresh [([97], [49]), ([98], [50]), ([99], [51])] [])
        (fun (h : Unit) (_ v a : Bytes) => ((0 : Int), a ++ v, h)) [] () =
      some (.ok [49, 50, 51], (), w') :=
  ⟨fun _ _ _ _ => rfl, rfl, by decide,
    (reduce_left_fold 4 (World.fresh [([97], [49]), ([98], [50]), ([99], [51])] [])
      (fun (h : Unit) (_ v a : Bytes) => ((0 : Int), a ++ v, h)) [] ()
      (fun _ _ _ _ => rfl) rfl (by decide)).imp (fun _ hw => hw.1)⟩

/-- C2: with the engine behaving as documented and a visitor that never fails,
`each` returns normally having applied the visitor to the records in traversal
order, once each: the callbacks recorded in the trace are exactly the table's
records, as many as the table holds (none for an empty table), and on a table
in ascending key order they are in ascending key order with no key repeated.
Any fuel above the number of records gives this result. -/
theorem each_visits_all {H : Type} (fuel : Nat) (w : World)
    (visitor : H → Bytes → Bytes → Int × H) (h : H)
    (hvis : ∀ h k v, (visitor h k v).1 = 0) (hq : w.script = [])
    (hf : w.store.length < fuel) (hasc : Ascending w.store) :
    ∃ w', each fuel w visitor h =
        some (.ok (), w.store.foldl (fun h r => (visitor h r.1 r.2).2) h, w') ∧
      fevals (w'.log.drop w.log.length) = w.store ∧
      (fevals (w'.log.drop w.log.length)).length = w.store.length ∧
      Ascending (fevals (w'.log.drop w.log.length)) ∧
      ((fevals (w'.log.drop w.log.length)).map Prod.fst).Nodup := by
  have hfold : ∀ h k v (a : Unit), (asFolder visitor h k v a).1 = 0 := fun h k v _ => hvis h k v
  obtain ⟨w', hred, hfev⟩ := reduce_quiet_fevals fuel w (asFolder visitor) () h hfold hq hf
  refine ⟨w', ?_, hfev, by rw [hfev], by rw [hfev]; exact hasc, ?_⟩
  · rw [each_eq_reduce, hred, ← foldStep_asFolder]
    rfl
  · rw [hfev]
    have hp : List.Pairwise (fun a b : Bytes => a < b) (w.store.map Prod.fst) :=
      List.pairwise_map.mpr hasc
    exact hp.imp (fun hab => ne_of_lt hab)

theorem each_visits_all_witness :
    (∀ (h : List Bytes) (k v : Bytes), ((fun (h : List Bytes) (k _ : Bytes) => ((0 : Int), h ++ [k])) h k v).1 = 0) ∧
    (World.fresh [([97], [49]), ([98], [50]), ([99], [51])] []).script = [] ∧
    (World.fresh [([97], [49]), ([98], [50]), ([99], [51])] []).store.length < 4 ∧
    Ascending (World.fresh [([97], [49]), ([98], [50]), ([99], [51])] []).store ∧
    ∃ w', each 4 (World.fresh [([97], [49]), ([98], [50]), ([99], [51])] [])
        (fun (h : List Bytes) (k _ : Bytes) => ((0 : Int), h ++ [k])) [] =
      some (.ok (), [[97], [98], [99]], w') :=
  ⟨fun _ _ _ => rfl, rfl, by decide, by decide,
    (each_visits_all 4 (World.fresh [([97], [49]), ([98], [50]), ([99], [51])] [])
      (fun (h : List Bytes) (k _ : Bytes) => ((0 : Int), h ++ [k])) []
      (fun _ _ _ => rfl) rfl (by decide) (by decide)).imp (fun _ hw => hw.1)⟩

/-- C8: whatever the engine reports and whatever the callback does, `reduce`
and `each` return or raise (given fuel above the number of records) leaving
the engine's live transactions and cursors as they found them, and the trace
of the call has one of the shapes of `Released`: when a cursor was opened it
is closed before its transaction is committed or aborted, and the
transaction is always committed or aborted. -/
theorem traversal_releases {H A : Type} (fuel : Nat) (w : World)
    (folder : H → Bytes → Bytes → A → Int × A × H) (initial : A)
    (visitor : H → Bytes → Bytes → Int × H) (h : H)
    (hf : w.store.length < fuel) (hfresh : ∀ p ∈ w.txns, p.1 ≠ w.next) :
    (∃ res h' w' evs, reduce fuel w folder initial h = some (res, h', w') ∧
      w'.txns = w.txns ∧ w'.cursors = w.cursors ∧ w'.log = w.log ++ evs ∧
      Released w.next evs) ∧
    (∃ res h' w' evs, each fuel w visitor h = some (res, h', w') ∧
      w'.txns = w.txns ∧ w'.cursors = w.cursors ∧ w'.log = w.log ++ evs ∧
      Released w.next evs) := by
  obtain ⟨store, txns, cursors, next, script, log⟩ := w
  constructor
  · obtain ⟨res, h', next', script', evs, heq, hrel⟩ :=
      reduce_releases_core fuel folder initial h store txns cursors next script log hf hfresh
    exact ⟨res, h', ⟨store, txns, cursors, next', script', log ++ evs⟩, evs, heq, rfl, rfl, rfl,
      hrel⟩
  · obtain ⟨res, h', next', script', evs, heq, hrel⟩ :=
      reduce_releases_core fuel (asFolder visitor) () h store txns cursors next script log hf
        hfresh
    refine ⟨res.map (fun _ => ()), h', ⟨store, txns, cursors, next', script', log ++ evs⟩, evs,
      ?_, rfl, rfl, rfl, hrel⟩
    rw [each_eq_reduce, heq]
    rfl

theorem traversal_releases_witness :
    (World.fresh [([97], [49]), ([98], [50])] [0, 0, 0, 0, 7]).store.length < 3 ∧
    (∀ p ∈ (World.fresh [([97], [49]), ([98], [50])] [0, 0, 0, 0, 7]).txns,
      p.1 ≠ (World.fresh [([97], [49]), ([98], [50])] [0, 0, 0, 0, 7]).next) ∧
    (∃ res h' w' evs,
      reduce 3 (World.fresh [([97], [49]), ([98], [50])] [0, 0, 0, 0, 7])
          (fun (h : Unit) (_ v a : Bytes) => ((0 : Int), a ++ v, h)) [] () = some (res, h', w') ∧
        w'.txns = [] ∧ w'.cursors = [] ∧ w'.log = [] ++ evs ∧ Released 0 evs) :=
  ⟨by decide, (fun p hp => by cases hp),
    (traversal_releases 3 (World.fresh [([97], [49]), ([98], [50])] [0, 0, 0, 0, 7])
      (fun (h : Unit) (_ v a : Bytes) => ((0 : Int), a ++ v, h)) []
      (fun (h : Unit) (_ _ : Bytes) => ((0 : Int), h)) ()
      (by decide) (fun p hp => by cases hp)).1⟩

/-! ## The table stays in ascending key order -/

theorem mem_insert {k v : Bytes} {t : List (Bytes × Bytes)} {r : Bytes × Bytes}
    (h : r ∈ insert k v t) : r = (k, v) ∨ r ∈ t := by
  induction t with
  | nil => simpa [insert] using h
  | cons r0 rest ih =>
    obtain ⟨k0, v0⟩ := r0
    by_cases h1 : k = k0
    · simp only [insert, h1, if_true, List.mem_cons] at h
      rcases h with h | h
      · exact Or.inl (by rw [h, h1])
      · exact Or.inr (List.mem_cons_of_mem _ h)
    · by_cases h2 : k < k0
      · simp only [insert, h1, h2, if_true, if_false, List.mem_cons] at h
        rcases h with h | h | h
        · exact Or.inl h
        · exact Or.inr (by rw [h]; exact List.mem_cons_self _ _)
        · exact Or.inr (List.mem_cons_of_mem _ h)
      · simp only [insert, h1, h2, if_false, List.mem_cons] at h
        rcases h with h | h
        · exact Or.inr (by rw [h]; exact List.mem_cons_self _ _)
        · rcases ih h with h | h
          · exact Or.inl h
          · exact Or.inr (List.mem_cons_of_mem _ h)

theorem Ascending_insert (k v : Bytes) (t : List (Bytes × Bytes)) (h : Ascending t) :
    Ascending (insert k v t) := by
  induction t with
  | nil => simp [insert, Ascending]
  | cons r0 rest ih =>
    obtain ⟨k0, v0⟩ := r0
    have hh : (∀ r ∈ rest, k0 < r.1) ∧ Ascending rest := List.pairwise_cons.mp h
    by_cases h1 : k = k0
    · subst h1
      simp only [insert, if_true]
      exact List.pairwise_cons.mpr ⟨hh.1, hh.2⟩
    · by_cases h2 : k < k0
      · simp only [insert, h1, h2, if_true, if_false]
        refine List.pairwise_cons.mpr ⟨?_, h⟩
        intro r hr
        rcases List.mem_cons.mp hr with hr | hr
        · rw [hr]; exact h2
        · exact lt_trans h2 (hh.1 r hr)
      · simp only [insert, h1, h2, if_false]
        have h3 : k0 < k := lt_of_le_of_ne (not_lt.mp h2) (fun e => h1 e.symm)
        refine List.pairwise_cons.mpr ⟨?_, ih hh.2⟩
        intro r hr
        rcases mem_insert hr with hr | hr
        · rw [hr]; exact h3
        · exact hh.1 r hr

theorem Ascending_delete (k : Bytes) (t : List (Bytes × Bytes)) (h : Ascending t) :
    Ascending (delete k t) :=
  List.Pairwise.sublist (List.filter_sublist _) h

theorem Ascending_append_last (view : List (Bytes × Bytes)) (last : Bytes × Bytes) (k v : Bytes)
    (h : Ascending view) (hl : view.getLast? = some last) (hk : last.1 < k) :
    Ascending (view ++ [(k, v)]) := by
  refine List.pairwise_append.mpr ⟨h, List.pairwise_singleton _ _, ?_⟩
  intro a ha b hb
  rw [List.mem_singleton] at hb
  subst hb
  obtain ⟨init, rfl⟩ : ∃ init, view = init ++ [last] := by
    rcases List.eq_nil_or_concat view with hv | ⟨init, x, hv⟩
    · subst hv; simp at hl
    · subst hv
      simp at hl
      exact ⟨init, by rw [hl, List.concat_eq_append]⟩
  rcases List.mem_append.mp ha with ha | ha
  · exact lt_trans ((List.pairwise_append.mp h).2.2 a ha last (List.mem_singleton_self _)) hk
  · rw [List.mem_singleton] at ha
    rw [ha]; exact hk

theorem Ascending_putView (view : List (Bytes × Bytes)) (k v : Bytes) (flags : Nat)
    (h : Ascending view) : Ascending (putView view k v flags).2 := by
  unfold putView
  simp only
  split
  · exact h
  · split
    · split
      · exact List.pairwise_singleton _ _
      · rename_i last hl
        split
        · rename_i hk
          exact Ascending_append_last view last k _ h hl hk
        · exact h
    · exact Ascending_insert _ _ _ h

theorem put_error_store (w : World) (k v : Bytes) (input : PutInput) (e : Raised)
    (h : (put w k v input).1 = .error e) : (put w k v input).2.store = w.store := by
  obtain ⟨store, txns, cursors, next, script, log⟩ := w
  by_cases h1 : nextStatus script = 0 <;>
  by_cases h2 : nextStatus (afterCall script) = 0 <;>
  by_cases h3 : nextStatus (afterCall (afterCall script)) = 0 <;>
  by_cases hp : (putView store k v (put_flags input)).1 = 0 <;>
  simp [put, put_body, Transaction.begin, Transaction.abort, Transaction.commit, Transaction.get,
    mdb_txn_begin, mdb_txn_commit, mdb_txn_abort, mdb_put, World.forced, World.step, World.emit,
    MDB_SUCCESS, h1, h2, h3, hp] at h ⊢

/-- Whatever the engine reports, `put` leaves a table that was in ascending key
order in ascending key order. -/
theorem put_keeps_ascending (w : World) (k v : Bytes) (input : PutInput)
    (h : Ascending w.store) : Ascending (put w k v input).2.store := by
  rcases hr : (put w k v input).1 with e | u
  · rw [put_error_store w k v input e hr]
    exact h
  · have hp : put w k v input = (.ok (), (put w k v input).2) := by
      rw [Prod.ext_iff]
      exact ⟨hr, rfl⟩
    rw [(put_ok_store w _ k v input hp).2]
    exact Ascending_putView _ _ _ _ h

theorem remove_store (w : World) (k : Bytes) :
    (remove w k).2.store = w.store ∨ (remove w k).2.store = delete k w.store := by
  obtain ⟨store, txns, cursors, next, script, log⟩ := w
  by_cases h1 : nextStatus script = 0 <;>
  by_cases h2 : nextStatus (afterCall script) = 0 <;>
  by_cases h3 : nextStatus (afterCall (afterCall script)) = 0 <;>
  cases hf : find? k store <;>
  simp [remove, remove_body, Transaction.begin, Transaction.abort, Transaction.commit,
    Transaction.get, mdb_txn_begin, mdb_txn_commit, mdb_txn_abort, mdb_del, World.forced,
    World.step, World.emit, MDB_SUCCESS, h1, h2, h3, hf, show MDB_NOTFOUND ≠ 0 by decide]

/-- Whatever the engine reports, `remove` leaves a table that was in ascending
key order in ascending key order. -/
theorem remove_keeps_ascending (w : World) (k : Bytes) (h : Ascending w.store) :
    Ascending (remove w k).2.store := by
  rcases remove_store w k with hr | hr
  · rw [hr]; exact h
  · rw [hr]; exact Ascending_delete k _ h

/-! ## One terminal action per transaction, unless a commit is refused -/

theorem terminals_snoc (p : Nat) (log : List Event) (e : Event) :
    terminals p (log ++ [e]) = terminals p log + if e.terminates p then 1 else 0 := by
  simp [terminals, List.countP_append, List.countP_cons]

theorem begun_snoc_begin (log : List Event) (flags : Nat) (s : Int) (id : Nat) :
    begun (log ++ [.txn_begin flags s (some id)]) = begun log ++ [id] := by
  simp [begun, List.filterMap_append]

theorem begun_snoc_other (log : List Event) (e : Event)
    (h : ∀ flags s id, e ≠ .txn_begin flags s (some id)) : begun (log ++ [e]) = begun log := by
  cases e <;> simp [begun, List.filterMap_append]

theorem TxnInv_abort (t : Transaction) (w : World) (h : TxnInv t w) :
    TxnInv (t.abort w).1 (t.abort w).2 ∧ (t.abort w).1.txn_ = none ∧
      (RefusedCommit w.log → RefusedCommit (t.abort w).2.log) := by
  obtain ⟨ha, hb, hc, hd⟩ := h
  obtain ⟨txn_⟩ := t
  cases txn_ with
  | none => exact ⟨⟨ha, hb, hc, hd⟩, rfl, id⟩
  | some q =>
    have hq := hd q rfl
    have hqn : q < w.next := hb q hq.2
    have hbeg : begun (w.log ++ [Event.txn_abort (some q)]) = begun w.log :=
      begun_snoc_other _ _ (fun _ _ _ hh => by cases hh)
    have habort : (Transaction.mk (some q)).abort w =
        ({ txn_ := none },
          { w with txns := erase q w.txns, log := w.log ++ [.txn_abort (some q)] }) := rfl
    rw [habort]
    refine ⟨⟨?_, ?_, ?_, ?_⟩, rfl, ?_⟩
    · intro p hp
      have hne : q ≠ p := by simp only at hp; omega
      simp only
      rw [terminals_snoc, ha p hp]
      simp [Event.terminates, hne]
    · intro p hp
      simp only at hp ⊢
      rw [hbeg] at hp
      exact hb p hp
    · intro p hp
      simp only at hp ⊢
      rw [hbeg] at hp
      rw [terminals_snoc, hc p hp]
      by_cases hpq : q = p
      · simp [Event.terminates, hpq]
      · simp [Event.terminates, hpq]
    · intro q' hq'
      cases hq'
    · rintro ⟨p, s, hmem, hs⟩
      exact ⟨p, s, List.mem_append_left _ hmem, hs⟩

theorem begin_after_abort (t : Transaction) (w : World) (flags : Nat) :
    t.begin w flags = (Transaction.mk none).begin (t.abort w).2 flags := by
  obtain ⟨txn_⟩ := t
  cases txn_ <;> rfl

theorem TxnInv_begin_none (w : World) (flags : Nat) (h : TxnInv ⟨none⟩ w) :
    TxnInv ((Transaction.mk none).begin w flags).2.1 ((Transaction.mk none).begin w flags).2.2 ∧
      (RefusedCommit w.log → RefusedCommit ((Transaction.mk none).begin w flags).2.2.log) := by
  obtain ⟨ha, hb, hc, hd⟩ := h
  by_cases hforced : nextStatus w.script = 0
  · have hbegin : (Transaction.mk none).begin w flags =
        (none, ⟨some w.next⟩,
          { w with
            txns := (w.next, ⟨flags, w.store⟩) :: w.txns
            next := w.next + 1
            script := afterCall w.script
            log := w.log ++ [.txn_begin flags MDB_SUCCESS (some w.next)] }) := by
      simp [Transaction.begin, Transaction.abort, mdb_txn_begin, World.forced, World.step,
        World.emit, MDB_SUCCESS, hforced]
    rw [hbegin]
    refine ⟨⟨?_, ?_, ?_, ?_⟩, ?_⟩
    · intro p hp
      simp only at hp ⊢
      rw [terminals_snoc, ha p (by omega)]
      rfl
    · intro p hp
      simp only at hp ⊢
      rw [begun_snoc_begin, List.mem_append, List.mem_singleton] at hp
      rcases hp with hp | hp
      · have := hb p hp; omega
      · omega
    · intro p hp
      simp only at hp ⊢
      rw [begun_snoc_begin, List.mem_append, List.mem_singleton] at hp
      rw [terminals_snoc]
      rcases hp with hp | hp
      · have hlt := hb p hp
        have hne : w.next ≠ p := by omega
        rw [hc p hp]
        simp [Event.terminates, hne]
      · subst hp
        rw [ha w.next (le_refl _)]
        simp [Event.terminates]
    · intro q hq
      simp only [Transaction.mk.injEq, Option.some.injEq] at hq
      subst hq
      simp only
      rw [begun_snoc_begin]
      exact ⟨by simp, by simp⟩
    · rintro ⟨p, s, hmem, hs⟩
      exact ⟨p, s, List.mem_append_left _ hmem, hs⟩
  · have hbegin : (Transaction.mk none).begin w flags =
        (some (.mdb (nextStatus w.script)), ⟨none⟩,
          { w with
            script := afterCall w.script
            log := w.log ++ [.txn_begin flags (nextStatus w.script) none] }) := by
      simp [Transaction.begin, Transaction.abort, mdb_txn_begin, World.forced, World.step,
        World.emit, MDB_SUCCESS, hforced]
    have hbeg : begun (w.log ++ [Event.txn_begin flags (nextStatus w.script) none]) =
        begun w.log := begun_snoc_other _ _ (fun _ _ _ hh => by cases hh)
    rw [hbegin]
    refine ⟨⟨?_, ?_, ?_, ?_⟩, ?_⟩
    · intro p hp
      simp only at hp ⊢
      rw [terminals_snoc, ha p hp]
      rfl
    · intro p hp
      simp only at hp ⊢
      rw [hbeg] at hp
      exact hb p hp
    · intro p hp
      simp only at hp ⊢
      rw [hbeg] at hp
      rw [terminals_snoc, hc p hp]
      rfl
    · intro q hq
      cases hq
    · rintro ⟨p, s, hmem, hs⟩
      exact ⟨p, s, List.mem_append_left _ hmem, hs⟩

theorem TxnInv_commit (t : Transaction) (w : World) (h : TxnInv t w) :
    (TxnInv (t.commit w).2.1 (t.commit w).2.2 ∨ RefusedCommit (t.commit w).2.2.log) ∧
      (RefusedCommit w.log → RefusedCommit (t.commit w).2.2.log) := by
  obtain ⟨ha, hb, hc, hd⟩ := h
  obtain ⟨txn_⟩ := t
  cases txn_ with
  | none => exact ⟨Or.inl ⟨ha, hb, hc, hd⟩, id⟩
  | some q =>
    have hq := hd q rfl
    have hqn : q < w.next := hb q hq.2
    obtain ⟨r, hr⟩ := Option.isSome_iff_exists.mp hq.1
    by_cases hforced : nextStatus w.script = 0
    · have hcommit : (Transaction.mk (some q)).commit w =
          (none, ⟨none⟩,
            { w with
              store := if isReadOnly r.flags then w.store else r.view
              txns := erase q w.txns
              script := afterCall w.script
              log := w.log ++ [.txn_commit (some q) MDB_SUCCESS] }) := by
        simp [Transaction.commit, mdb_txn_commit, World.forced, World.step, World.emit,
          MDB_SUCCESS, hforced, hr]
      have hbeg : begun (w.log ++ [Event.txn_commit (some q) MDB_SUCCESS]) = begun w.log :=
        begun_snoc_other _ _ (fun _ _ _ hh => by cases hh)
      rw [hcommit]
      refine ⟨Or.inl ⟨?_, ?_, ?_, ?_⟩, ?_⟩
      · intro p hp
        have hne : q ≠ p := by simp only at hp; omega
        simp only
        rw [terminals_snoc, ha p hp]
        simp [Event.terminates, hne]
      · intro p hp
        simp only at hp ⊢
        rw [hbeg] at hp
        exact hb p hp
      · intro p hp
        simp only at hp ⊢
        rw [hbeg] at hp
        rw [terminals_snoc, hc p hp]
        by_cases hpq : q = p
        · simp [Event.terminates, hpq]
        · simp [Event.terminates, hpq]
      · intro q' hq'
        cases hq'
      · rintro ⟨p, s, hmem, hs⟩
        exact ⟨p, s, List.mem_append_left _ hmem, hs⟩
    · have hcommit : ((Transaction.mk (some q)).commit w).2.2.log =
          w.log ++ [.txn_commit (some q) (nextStatus w.script)] := by
        simp [Transaction.commit, mdb_txn_commit, World.forced, World.step, World.emit,
          MDB_SUCCESS, hforced, hr]
      rw [hcommit]
      exact ⟨Or.inr ⟨some q, _, by simp, hforced⟩,
        fun ⟨p, s, hmem, hs⟩ => ⟨p, s, List.mem_append_left _ hmem, hs⟩⟩

theorem abort_log (t : Transaction) (w : World) : ∃ evs, (t.abort w).2.log = w.log ++ evs := by
  obtain ⟨txn_⟩ := t
  cases txn_ with
  | none => exact ⟨[], by simp [Transaction.abort]⟩
  | some q => exact ⟨[.txn_abort (some q)], rfl⟩

theorem begin_none_log (w : World) (flags : Nat) :
    ∃ evs, ((Transaction.mk none).begin w flags).2.2.log = w.log ++ evs := by
  by_cases hforced : nextStatus w.script = 0
  · exact ⟨[.txn_begin flags MDB_SUCCESS (some w.next)], by
      simp [Transaction.begin, Transaction.abort, mdb_txn_begin, World.forced, World.step,
        World.emit, MDB_SUCCESS, hforced]⟩
  · exact ⟨[.txn_begin flags (nextStatus w.script) none], by
      simp [Transaction.begin, Transaction.abort, mdb_txn_begin, World.forced, World.step,
        World.emit, MDB_SUCCESS, hforced]⟩

theorem commit_log (t : Transaction) (w : World) :
    ∃ evs, (t.commit w).2.2.log = w.log ++ evs := by
  obtain ⟨txn_⟩ := t
  cases txn_ with
  | none => exact ⟨[], by simp [Transaction.commit]⟩
  | some q =>
    by_cases hforced : nextStatus w.script = 0 <;>
    cases hr : find? q w.txns <;>
    exact ⟨_, by
      simp [Transaction.commit, mdb_txn_commit, World.forced, World.step, World.emit,
        MDB_SUCCESS, hforced, hr]
      rfl⟩

theorem call_log (t : Transaction) (w : World) (c : Call) :
    ∃ evs, (t.call w c).2.2.log = w.log ++ evs := by
  cases c with
  | begin flags =>
    simp only [Transaction.call]
    rw [begin_after_abort]
    obtain ⟨e1, h1⟩ := abort_log t w
    obtain ⟨e2, h2⟩ := begin_none_log (t.abort w).2 flags
    exact ⟨e1 ++ e2, by rw [h2, h1, List.append_assoc]⟩
  | commit => exact commit_log t w
  | abort => exact abort_log t w

theorem RefusedCommit_append {log : List Event} (evs : List Event) (h : RefusedCommit log) :
    RefusedCommit (log ++ evs) := by
  obtain ⟨p, s, hmem, hs⟩ := h
  exact ⟨p, s, List.mem_append_left _ hmem, hs⟩

theorem TxnInv_run (calls : List Call) :
    ∀ (t : Transaction) (w : World), TxnInv t w ∨ RefusedCommit w.log →
      TxnInv (Transaction.run calls t w).2.1 (Transaction.run calls t w).2.2 ∨
        RefusedCommit (Transaction.run calls t w).2.2.log := by
  induction calls with
  | nil => intro t w h; exact h
  | cons c cs ih =>
    intro t w h
    have hstep : TxnInv (t.call w c).2.1 (t.call w c).2.2 ∨
        RefusedCommit (t.call w c).2.2.log := by
      rcases h with h | h
      · cases c with
        | begin flags =>
          simp only [Transaction.call]
          rw [begin_after_abort]
          have h1 := TxnInv_abort t w h
          have h2 : TxnInv ⟨none⟩ (t.abort w).2 := by
            have := h1.1
            rw [show (t.abort w).1 = ⟨none⟩ from by
              obtain ⟨txn_⟩ := t
              cases txn_ <;> rfl] at this
            exact this
          exact Or.inl (TxnInv_begin_none _ flags h2).1
        | commit => exact (TxnInv_commit t w h).1
        | abort => exact Or.inl (TxnInv_abort t w h).1
      · obtain ⟨evs, hevs⟩ := call_log t w c
        rw [hevs]
        exact Or.inr (RefusedCommit_append evs h)
    rcases hc : t.call w c with ⟨e, t', w'⟩
    rw [hc] at hstep
    cases e with
    | some err => simpa [Transaction.run, hc] using hstep
    | none => simpa [Transaction.run, hc] using ih t' w' hstep

/-- Part of C7 that holds: for every sequence of calls on one `Transaction`
object followed by its destruction and every engine behaviour in which no
commit is refused, each engine transaction the object began received exactly
one terminal action. -/
theorem scope_one_terminal (calls : List Call) (store : List (Bytes × Bytes))
    (script : List Int)
    (hc : ¬ RefusedCommit (Transaction.scope calls (World.fresh store script)).log) :
    ∀ p ∈ begun (Transaction.scope calls (World.fresh store script)).log,
      terminals p (Transaction.scope calls (World.fresh store script)).log = 1 := by
  have h0 : TxnInv {} (World.fresh store script) :=
    ⟨fun _ _ => rfl, (fun p hp => by cases hp), (fun p hp => by cases hp),
      (fun q hq => by cases hq)⟩
  have hrun := TxnInv_run calls {} (World.fresh store script) (Or.inl h0)
  have hscope : Transaction.scope calls (World.fresh store script) =
      ((Transaction.run calls {} (World.fresh store script)).2.1.abort
        (Transaction.run calls {} (World.fresh store script)).2.2).2 := rfl
  rw [hscope] at hc ⊢
  rcases hrun with hrun | hrun
  · obtain ⟨hinv, hnone, _⟩ := TxnInv_abort _ _ hrun
    intro p hp
    rw [hinv.2.2.1 p hp, hnone]
    rfl
  · obtain ⟨evs, hevs⟩ := abort_log (Transaction.run calls {} (World.fresh store script)).2.1
      (Transaction.run calls {} (World.fresh store script)).2.2
    rw [hevs] at hc
    exact absurd (RefusedCommit_append evs hrun) hc

end LMDB
